import Mathlib

/-!
# Verification of the diffusion-term kernels (termsLaplace.c)

Shallow embedding of `sfepy/terms/extmods/termsLaplace.c` over exact rational
arithmetic (`float64` is modelled by `ℚ`).  An `FMField` batch buffer becomes a
structure carrying its dimensions and a total valuation function
`cell → level → flat-offset → ℚ`; a cursor-positioned cell becomes a `Slice`.
The generic matrix primitives (`fmf_*`) live in `fmfield.c`, which is not part
of this repository snapshot, so they are modelled from the specification
(§4.1 of the design document); the Laplace-specific kernels and the term
evaluators are translated statement by statement from `termsLaplace.c`.
The C `switch` statements become `if`-chains, loops that write through raw
pointers become explicit write lists applied in program order (so overlapping
writes keep their last-write-wins behaviour), and the cell loop with its
first-fault abort becomes an `Option`-valued per-cell function: the evaluator
returns `none` exactly when some processed cell faults.
-/

namespace TermsLaplace

/-- One cursor-positioned cell of a batch buffer: `nLev` quadrature levels,
each a row-major `nRow × nCol` matrix stored flat; `dat l p` is the value at
level `l`, flat offset `p`. -/
structure Slice where
  nLev : ℕ
  nRow : ℕ
  nCol : ℕ
  dat : ℕ → ℕ → ℚ

/-- A batch buffer (`FMField`): `nCell` cells, each shaped like a `Slice`. -/
structure FMF where
  nCell : ℕ
  nLev : ℕ
  nRow : ℕ
  nCol : ℕ
  dat : ℕ → ℕ → ℕ → ℚ

/-- The cell slice of a batch buffer at cell index `ii`. -/
def FMF.cell (a : FMF) (ii : ℕ) : Slice :=
  ⟨a.nLev, a.nRow, a.nCol, a.dat ii⟩

/-- Modelled from the spec: cursor positioning (`FMF_SetCell`, §3 of the
design document; `fmfield.c` is not in this snapshot).  Positioning the cursor
onto a cell outside the batch is a contract violation, i.e. a fault. -/
def FMF.setCell (a : FMF) (ii : ℕ) : Option Slice :=
  if ii < a.nCell then some (a.cell ii) else none

/-- The raw flat view of a slice, as C pointer arithmetic sees it: offset `k`
from the cursor lands in level `k / (nRow*nCol)` at in-level offset
`k % (nRow*nCol)`. -/
def Slice.flat (s : Slice) (k : ℕ) : ℚ :=
  s.dat (k / (s.nRow * s.nCol)) (k % (s.nRow * s.nCol))

/-- A freshly allocated scratch slice (`fmf_createAlloc` of a one-cell
buffer); its contents are irrelevant because every kernel overwrites the
entries it later reads, so the model initializes them to `0`. -/
def scratch (nLev nRow nCol : ℕ) : Slice :=
  ⟨nLev, nRow, nCol, fun _ _ => 0⟩

/-! ## Matrix primitives, modelled from the specification (§4.1)

`fmfield.c` is not under `src/`; each primitive follows the spec's
description of `fill`, `scale`, `product` and `reduceWeighted`. -/

/-- Modelled from the spec: `fill` — sets every in-range entry of the current
cell (`fmf_fillC`). -/
def fmf_fillC (s : Slice) (v : ℚ) : Slice :=
  ⟨s.nLev, s.nRow, s.nCol, fun l p =>
    if l < s.nLev ∧ p < s.nRow * s.nCol then v else s.dat l p⟩

/-- Modelled from the spec: `scale` with one scalar per quadrature level
(`fmf_mulAF`); level `l` of `A` is multiplied by `val l`. -/
def fmf_mulAF (a : Slice) (val : ℕ → ℚ) : Slice :=
  ⟨a.nLev, a.nRow, a.nCol, fun l p =>
    if l < a.nLev ∧ p < a.nRow * a.nCol then val l * a.dat l p else a.dat l p⟩

/-- Modelled from the spec: in-place scaling of the current cell by a single
scalar (`fmf_mulC`). -/
def fmf_mulC (s : Slice) (c : ℚ) : Slice :=
  ⟨s.nLev, s.nRow, s.nCol, fun l p =>
    if l < s.nLev ∧ p < s.nRow * s.nCol then s.dat l p * c else s.dat l p⟩

/-- The per-level product `A·B` as a slice (row-major flat indexing). -/
def mulAB_dat (a b : Slice) : Slice :=
  ⟨a.nLev, a.nRow, b.nCol, fun l p =>
    ∑ k ∈ Finset.range a.nCol,
      a.dat l ((p / b.nCol) * a.nCol + k) * b.dat l (k * b.nCol + p % b.nCol)⟩

/-- Modelled from the spec: `product` per quadrature level, plain `A·B`
(`fmf_mulAB_nn`); a shape mismatch is a fault. -/
def fmf_mulAB_nn (a b : Slice) : Option Slice :=
  if a.nLev = b.nLev ∧ a.nCol = b.nRow then some (mulAB_dat a b) else none

/-- The per-level product `Aᵀ·B` as a slice. -/
def mulATB_dat (a b : Slice) : Slice :=
  ⟨a.nLev, a.nCol, b.nCol, fun l p =>
    ∑ k ∈ Finset.range a.nRow,
      a.dat l (k * a.nCol + p / b.nCol) * b.dat l (k * b.nCol + p % b.nCol)⟩

/-- Modelled from the spec: `product` per quadrature level, `Aᵀ·B`
(`fmf_mulATB_nn`). -/
def fmf_mulATB_nn (a b : Slice) : Option Slice :=
  if a.nLev = b.nLev ∧ a.nRow = b.nRow then some (mulATB_dat a b) else none

/-- The per-level product `Aᵀ·Bᵀ` as a slice. -/
def mulATBT_dat (a b : Slice) : Slice :=
  ⟨a.nLev, a.nCol, b.nRow, fun l p =>
    ∑ k ∈ Finset.range a.nRow,
      a.dat l (k * a.nCol + p / b.nRow) * b.dat l ((p % b.nRow) * b.nCol + k)⟩

/-- Modelled from the spec: `product` per quadrature level, `Aᵀ·Bᵀ`
(`fmf_mulATBT_nn`). -/
def fmf_mulATBT_nn (a b : Slice) : Option Slice :=
  if a.nLev = b.nLev ∧ a.nRow = b.nCol then some (mulATBT_dat a b) else none

/-- The per-level product of `A` with the single level slice of `B`. -/
def mulABn1_dat (a b : Slice) : Slice :=
  ⟨a.nLev, a.nRow, b.nCol, fun l p =>
    ∑ k ∈ Finset.range a.nCol,
      a.dat l ((p / b.nCol) * a.nCol + k) * b.dat 0 (k * b.nCol + p % b.nCol)⟩

/-- Modelled from the spec: `product` where the second operand is a one-level
(per-cell) matrix broadcast to every quadrature level (`fmf_mulAB_n1`,
the §4.1 level-broadcast rule). -/
def fmf_mulAB_n1 (a b : Slice) : Option Slice :=
  if a.nCol = b.nRow then some (mulABn1_dat a b) else none

/-- Modelled from the spec: `reduceWeighted` (`fmf_sumLevelsMulF`) — fully
overwrites the in-range entries of the output cell with the weighted sum of
the levels of `a` (output contract, §6: no accumulation into prior
contents). -/
def fmf_sumLevelsMulF (outS a : Slice) (w : ℕ → ℚ) : Slice :=
  ⟨outS.nLev, outS.nRow, outS.nCol, fun l p =>
    if l = 0 ∧ p < outS.nRow * outS.nCol then
      ∑ il ∈ Finset.range a.nLev, w il * a.dat il p
    else outS.dat l p⟩

/-! ## Pointer writes in program order

The Laplace kernels in `termsLaplace.c` write through raw pointers; the
embedding records each loop's writes as an explicit list of
(flat offset, value) pairs applied left to right, so overlapping writes keep
the C last-write-wins semantics. -/

/-- A single pointer write `f[i] = v`. -/
def wrt (f : ℕ → ℚ) (i : ℕ) (v : ℚ) : ℕ → ℚ :=
  fun j => if j = i then v else f j

/-- Apply a list of writes in order. -/
def applyWrites (f : ℕ → ℚ) (ws : List (ℕ × ℚ)) : ℕ → ℚ :=
  ws.foldl (fun g w => wrt g w.1 w.2) f

theorem applyWrites_nil (f : ℕ → ℚ) : applyWrites f [] = f := rfl

theorem applyWrites_cons (f : ℕ → ℚ) (w : ℕ × ℚ) (ws : List (ℕ × ℚ)) :
    applyWrites f (w :: ws) = applyWrites (wrt f w.1 w.2) ws := rfl

/-- An offset never written keeps its prior value. -/
theorem applyWrites_notMem (ws : List (ℕ × ℚ)) (f : ℕ → ℚ) (p : ℕ)
    (h : ∀ w ∈ ws, w.1 ≠ p) : applyWrites f ws p = f p := by
  induction ws generalizing f with
  | nil => rfl
  | cons w t ih =>
      rw [applyWrites_cons, ih _ (fun u hu => h u (List.mem_cons_of_mem _ hu))]
      simp only [wrt]
      rw [if_neg]
      intro hp
      exact h w (List.mem_cons_self _ _) (hp ▸ rfl)

/-- If every write hitting offset `p` carries the same value `v`, and some
write does hit `p`, the final value at `p` is `v`. -/
theorem applyWrites_unique (ws : List (ℕ × ℚ)) (f : ℕ → ℚ) (p : ℕ) (v : ℚ)
    (hmem : (p, v) ∈ ws) (huniq : ∀ w ∈ ws, w.1 = p → w.2 = v) :
    applyWrites f ws p = v := by
  induction ws generalizing f with
  | nil => cases hmem
  | cons w t ih =>
      rw [applyWrites_cons]
      by_cases hq : ∃ u, (p, u) ∈ t
      · obtain ⟨u, hu⟩ := hq
        have hv : u = v := huniq (p, u) (List.mem_cons_of_mem _ hu) rfl
        exact ih _ (hv ▸ hu) (fun x hx h1 => huniq x (List.mem_cons_of_mem _ hx) h1)
      · have hnot : ∀ x ∈ t, x.1 ≠ p := by
          intro x hx hxp
          exact hq ⟨x.2, by rcases x with ⟨x1, x2⟩; cases hxp; exact hx⟩
        have hw : w = (p, v) := by
          rcases List.mem_cons.mp hmem with hh | hh
          · exact hh.symm
          · exact absurd rfl (hnot _ hh)
        subst hw
        rw [applyWrites_notMem _ _ _ hnot]
        simp [wrt]

/-! ## Laplace kernels, translated from termsLaplace.c

Return values: `true` models `RET_OK`, `false` models `RET_Fail`. -/

/-- Writes of the `case 3` double loop of `laplace_build_gtg` (lines 23-36):
for `ir, ic < nEP`, `pout[ir*nCol + ic] = pg1[ir]*pg1[ic] + pg2[ir]*pg2[ic]
+ pg3[ir]*pg3[ic]`, where `pg1, pg2, pg3` are the three rows of the gradient
level slice `pg`. -/
def gtgWrites3 (nEP nCol : ℕ) (pg : ℕ → ℚ) : List (ℕ × ℚ) :=
  (List.range nEP).flatMap fun ir =>
    (List.range nEP).map fun ic =>
      (ir * nCol + ic,
        pg ir * pg ic + pg (nEP + ir) * pg (nEP + ic)
          + pg (2 * nEP + ir) * pg (2 * nEP + ic))

/-- Writes of the `case 2` double loop of `laplace_build_gtg` (lines 40-52). -/
def gtgWrites2 (nEP nCol : ℕ) (pg : ℕ → ℚ) : List (ℕ × ℚ) :=
  (List.range nEP).flatMap fun ir =>
    (List.range nEP).map fun ic =>
      (ir * nCol + ic, pg ir * pg ic + pg (nEP + ir) * pg (nEP + ic))

/-- `laplace_build_gtg` (lines 11-60): zero-fill the output, then per
quadrature point write the gradient Gramian; a spatial dimension other than
2 or 3 hits the `default` branch and returns `RET_Fail` after the fill. -/
def laplace_build_gtg (out gc : Slice) : Bool × Slice :=
  let nEP := gc.nCol
  let nQP := gc.nLev
  let nCol := out.nCol
  let filled := fmf_fillC out 0
  if gc.nRow = 3 then
    (true, ⟨filled.nLev, filled.nRow, filled.nCol, fun l =>
      if l < nQP then applyWrites (filled.dat l) (gtgWrites3 nEP nCol (gc.dat l))
      else filled.dat l⟩)
  else if gc.nRow = 2 then
    (true, ⟨filled.nLev, filled.nRow, filled.nCol, fun l =>
      if l < nQP then applyWrites (filled.dat l) (gtgWrites2 nEP nCol (gc.dat l))
      else filled.dat l⟩)
  else
    (false, filled)

/-- Writes of the `case 3` loop of `laplace_act_g_m` (lines 84-107): for each
`ic < nCol` the three accumulated values are stored at `pout[ic+0]`,
`pout[ic+1]`, `pout[ic+2]` — exactly as in the source, with no `nCol` stride
between the rows, so consecutive `ic` iterations overlap for `nCol > 1`. -/
def actGMWrites3 (nEP nCol : ℕ) (pg pm : ℕ → ℚ) : List (ℕ × ℚ) :=
  (List.range nCol).flatMap fun ic =>
    [(ic, ∑ ik ∈ Finset.range nEP, pg ik * pm (ic + nCol * ik)),
     (ic + 1, ∑ ik ∈ Finset.range nEP, pg (nEP + ik) * pm (ic + nCol * ik)),
     (ic + 2, ∑ ik ∈ Finset.range nEP, pg (2 * nEP + ik) * pm (ic + nCol * ik))]

/-- Writes of the `case 2` loop of `laplace_act_g_m` (lines 111-131). -/
def actGMWrites2 (nEP nCol : ℕ) (pg pm : ℕ → ℚ) : List (ℕ × ℚ) :=
  (List.range nCol).flatMap fun ic =>
    [(ic, ∑ ik ∈ Finset.range nEP, pg ik * pm (ic + nCol * ik)),
     (ic + 1, ∑ ik ∈ Finset.range nEP, pg (nEP + ik) * pm (ic + nCol * ik))]

/-- `laplace_act_g_m` (lines 70-140): per quadrature point apply the gradient
on the left of `mtx`; when `mtx` has as many levels as the gradient the
matching level is used, otherwise the current (cursor) slice of `mtx` is
reused for every quadrature point (lines 90-94 / 116-120). -/
def laplace_act_g_m (out gc mtx : Slice) : Bool × Slice :=
  let nEP := gc.nCol
  let nQP := gc.nLev
  let nCol := mtx.nCol
  if gc.nRow = 3 then
    (true, ⟨out.nLev, out.nRow, out.nCol, fun l =>
      if l < nQP then
        applyWrites (out.dat l)
          (actGMWrites3 nEP nCol (gc.dat l)
            (if mtx.nLev = nQP then mtx.dat l else mtx.flat))
      else out.dat l⟩)
  else if gc.nRow = 2 then
    (true, ⟨out.nLev, out.nRow, out.nCol, fun l =>
      if l < nQP then
        applyWrites (out.dat l)
          (actGMWrites2 nEP nCol (gc.dat l)
            (if mtx.nLev = nQP then mtx.dat l else mtx.flat))
      else out.dat l⟩)
  else
    (false, out)

/-- Writes of the `case 3` loop of `laplace_act_gt_m` (lines 160-175): for
`iep < nEP`, `ii < nCol`, `pout[nCol*iep + ii] = pg1[iep]*pmtx[0*nCol+ii]
+ pg2[iep]*pmtx[1*nCol+ii] + pg3[iep]*pmtx[2*nCol+ii]`. -/
def actGtMWrites3 (nEP nCol : ℕ) (pg pm : ℕ → ℚ) : List (ℕ × ℚ) :=
  (List.range nEP).flatMap fun iep =>
    (List.range nCol).map fun ii =>
      (nCol * iep + ii,
        pg iep * pm ii + pg (nEP + iep) * pm (nCol + ii)
          + pg (2 * nEP + iep) * pm (2 * nCol + ii))

/-- Writes of the `case 2` loop of `laplace_act_gt_m` (lines 179-193). -/
def actGtMWrites2 (nEP nCol : ℕ) (pg pm : ℕ → ℚ) : List (ℕ × ℚ) :=
  (List.range nEP).flatMap fun iep =>
    (List.range nCol).map fun ii =>
      (nCol * iep + ii, pg iep * pm ii + pg (nEP + iep) * pm (nCol + ii))

/-- `laplace_act_gt_m` (lines 149-201): per quadrature point apply the
transposed gradient on the left of `mtx`; `mtx` is always read at the
matching quadrature level (line 165/183). -/
def laplace_act_gt_m (out gc mtx : Slice) : Bool × Slice :=
  let nEP := gc.nCol
  let nQP := gc.nLev
  let nCol := mtx.nCol
  if gc.nRow = 3 then
    (true, ⟨out.nLev, out.nRow, out.nCol, fun l =>
      if l < nQP then applyWrites (out.dat l) (actGtMWrites3 nEP nCol (gc.dat l) (mtx.dat l))
      else out.dat l⟩)
  else if gc.nRow = 2 then
    (true, ⟨out.nLev, out.nRow, out.nCol, fun l =>
      if l < nQP then applyWrites (out.dat l) (actGtMWrites2 nEP nCol (gc.dat l) (mtx.dat l))
      else out.dat l⟩)
  else
    (false, out)

/-! ## Geometry records and the cell-loop skeleton -/

/-- The volume geometry record: basis-gradient matrices `bfGM` and Jacobian
determinant weights `det`, per cell and quadrature point. -/
structure VolumeGeometry where
  bfGM : FMF
  det : FMF

/-- The surface geometry record: outward normals, determinant weights, and
per-cell facet areas. -/
structure SurfaceGeometry where
  normal : FMF
  det : FMF
  area : FMF

/-- Run the body of an evaluator's cell loop over cells `0, …, n-1` and
assemble the final output buffer; a fault on any processed cell aborts the
whole batch (first fault wins, §5 of the design document), which the model
collapses to `none`.  Cells beyond the loop keep the output buffer's prior
contents. -/
def assembleCells (out : FMF) (n : ℕ) (body : ℕ → Option Slice) : Option FMF :=
  if ∀ i, i < n → (body i).isSome then
    some ⟨out.nCell, out.nLev, out.nRow, out.nCol, fun c l p =>
      if c < n then ((body c).getD (scratch 0 0 0)).dat l p else out.dat c l p⟩
  else none

/-! ## Term evaluators, translated from termsLaplace.c -/

/-- Body of the `dw_laplace` cell loop (lines 228-246): position the cursors,
broadcast a one-cell coefficient (lines 232-233), then either build the
weighted Gramian (matrix mode) or apply the transposed gradient to the
supplied gradient field (vector mode). -/
def dwLaplaceCell (out grad coef : FMF) (vg : VolumeGeometry) (isDiff : Bool)
    (ii : ℕ) : Option Slice := do
  let nQP := vg.bfGM.nLev
  let nEP := vg.bfGM.nCol
  let outS ← out.setCell ii
  let g ← vg.bfGM.setCell ii
  let d ← vg.det.setCell ii
  let c ← if 1 < coef.nCell then coef.setCell ii else some (coef.cell 0)
  if isDiff then
    let r := laplace_build_gtg (scratch nQP nEP nEP) g
    if r.1 then
      some (fmf_sumLevelsMulF outS (fmf_mulAF r.2 c.flat) d.flat)
    else none
  else do
    let gr ← grad.setCell ii
    let r := laplace_act_gt_m (scratch nQP nEP 1) g gr
    if r.1 then
      some (fmf_sumLevelsMulF outS (fmf_mulAF r.2 c.flat) d.flat)
    else none

/-- `dw_laplace` (lines 210-256). -/
def dw_laplace (out grad coef : FMF) (vg : VolumeGeometry) (isDiff : Bool) :
    Option FMF :=
  assembleCells out out.nCell (dwLaplaceCell out grad coef vg isDiff)

/-- Body of the `d_diffusion` cell loop (lines 371-385). -/
def dDiffusionCell (out gradP1 gradP2 mtxD : FMF) (vg : VolumeGeometry)
    (ii : ℕ) : Option Slice := do
  let outS ← out.setCell ii
  let d ← vg.det.setCell ii
  let g1 ← gradP1.setCell ii
  let g2 ← gradP2.setCell ii
  let m ← if 1 < mtxD.nCell then mtxD.setCell ii else some (mtxD.cell 0)
  let dgp2 ← fmf_mulAB_nn m g2
  let gp1tdgp2 ← fmf_mulATB_nn g1 dgp2
  some (fmf_sumLevelsMulF outS gp1tdgp2 d.flat)

/-- `d_diffusion` (lines 359-392). -/
def d_diffusion (out gradP1 gradP2 mtxD : FMF) (vg : VolumeGeometry) :
    Option FMF :=
  assembleCells out out.nCell (dDiffusionCell out gradP1 gradP2 mtxD vg)

/-- The whole-buffer flat view of a batch buffer, as `FMF_PtrFirst` pointer
arithmetic sees it. -/
def FMF.rawFlat (a : FMF) (k : ℕ) : ℚ :=
  (a.cell (k / (a.nLev * a.nRow * a.nCol))).flat (k % (a.nLev * a.nRow * a.nCol))

/-- Modelled from the spec: `gatherNodalValues` (§9); the element-wise nodal
extraction `ele_extractNodalValuesNBN` is not under `src/`.  Entry `i` of the
local vector is the state value at global dof `econn i`. -/
def ele_extractNodalValuesNBN (nEP : ℕ) (sv : ℕ → ℚ) (econn : ℕ → ℕ) : Slice :=
  ⟨1, nEP, 1, fun _ i => sv (econn i)⟩

/-- Body of the `dw_diffusion_coupling` element loop (lines 463-495): note
the geometry is positioned on `elList[ii]` while the output and coefficient
are positioned on the loop index `ii`, and that `bf` is never repositioned
(its current cell, cell 0, is used throughout). -/
def dwDiffusionCouplingCell (out state : FMF) (offset : ℕ) (mtxD bf : FMF)
    (vg : VolumeGeometry) (conn : ℕ → ℕ) (nEP : ℕ) (elList : ℕ → ℕ)
    (isDiff : Bool) (mode : ℤ) (ii : ℕ) : Option Slice := do
  let iel := elList ii
  let outS ← out.setCell ii
  let g ← vg.bfGM.setCell iel
  let d ← vg.det.setCell iel
  let m ← if 1 < mtxD.nCell then mtxD.setCell ii else some (mtxD.cell 0)
  if isDiff then do
    let gtd ← fmf_mulATB_nn g m
    let gtdg ← if 0 < mode then fmf_mulATBT_nn (bf.cell 0) gtd
               else fmf_mulAB_nn gtd (bf.cell 0)
    some (fmf_sumLevelsMulF outS gtdg d.flat)
  else do
    let st := ele_extractNodalValuesNBN nEP (fun k => state.rawFlat (offset + k))
                (fun i => conn (nEP * iel + i))
    if 0 < mode then do
      let gp ← fmf_mulAB_n1 g st
      let dgp ← fmf_mulATB_nn m gp
      let gtdgp ← fmf_mulATB_nn (bf.cell 0) dgp
      some (fmf_sumLevelsMulF outS gtdgp d.flat)
    else do
      let gp ← fmf_mulAB_n1 (bf.cell 0) st
      let dgp ← fmf_mulAB_nn m gp
      let gtdgp ← fmf_mulATB_nn g dgp
      some (fmf_sumLevelsMulF outS gtdgp d.flat)

/-- `dw_diffusion_coupling` (lines 431-509); the element list is the flat
index array `elList` with `elList_nRow` entries, and `nEl` is carried but, as
in the source, never used by the loop. -/
def dw_diffusion_coupling (out state : FMF) (offset : ℕ) (mtxD bf : FMF)
    (vg : VolumeGeometry) (conn : ℕ → ℕ) (nEl nEP : ℕ) (elList : ℕ → ℕ)
    (elList_nRow : ℕ) (isDiff : Bool) (mode : ℤ) : Option FMF :=
  assembleCells out elList_nRow
    (dwDiffusionCouplingCell out state offset mtxD bf vg conn nEP elList isDiff mode)

/-- Body of the `d_surface_flux` cell loop (lines 586-602): every cursor,
including the coefficient `mtxD`, is positioned on the loop index
unconditionally (lines 587-591); in mean mode the accumulated scalar is
multiplied by `1.0 / area` (lines 597-600). -/
def dSurfaceFluxCell (out grad mtxD : FMF) (sg : SurfaceGeometry) (mode : ℤ)
    (ii : ℕ) : Option Slice := do
  let outS ← out.setCell ii
  let g ← grad.setCell ii
  let m ← mtxD.setCell ii
  let n ← sg.normal.setCell ii
  let d ← sg.det.setCell ii
  let dgp ← fmf_mulAB_nn m g
  let ntdgp ← fmf_mulATB_nn n dgp
  let o1 := fmf_sumLevelsMulF outS ntdgp d.flat
  if mode = 1 then do
    let a ← sg.area.setCell ii
    some (fmf_mulC o1 (1 / a.dat 0 0))
  else
    some o1

/-- `d_surface_flux` (lines 574-609). -/
def d_surface_flux (out grad mtxD : FMF) (sg : SurfaceGeometry) (mode : ℤ) :
    Option FMF :=
  assembleCells out out.nCell (dSurfaceFluxCell out grad mtxD sg mode)

/-- Body of the guarded variant of the `d_surface_flux` cell loop: identical
to `dSurfaceFluxCell` except that the unguarded division by the facet area
(line 599) is replaced by a guarded one whose error branch (`none`) is taken
when the area is zero. -/
def dSurfaceFluxCellChecked (out grad mtxD : FMF) (sg : SurfaceGeometry)
    (mode : ℤ) (ii : ℕ) : Option Slice := do
  let outS ← out.setCell ii
  let g ← grad.setCell ii
  let m ← mtxD.setCell ii
  let n ← sg.normal.setCell ii
  let d ← sg.det.setCell ii
  let dgp ← fmf_mulAB_nn m g
  let ntdgp ← fmf_mulATB_nn n dgp
  let o1 := fmf_sumLevelsMulF outS ntdgp d.flat
  if mode = 1 then do
    let a ← sg.area.setCell ii
    if a.dat 0 0 = 0 then none
    else some (fmf_mulC o1 (1 / a.dat 0 0))
  else
    some o1

/-- Guarded-division variant of `d_surface_flux`. -/
def d_surface_flux_checked (out grad mtxD : FMF) (sg : SurfaceGeometry)
    (mode : ℤ) : Option FMF :=
  assembleCells out out.nCell (dSurfaceFluxCellChecked out grad mtxD sg mode)

/-! ## General lemmas about the cell loop -/

theorem assembleCells_eq_some (out : FMF) (n : ℕ) (body : ℕ → Option Slice)
    (h : ∀ i, i < n → (body i).isSome) :
    assembleCells out n body =
      some ⟨out.nCell, out.nLev, out.nRow, out.nCol, fun c l p =>
        if c < n then ((body c).getD (scratch 0 0 0)).dat l p
        else out.dat c l p⟩ := by
  rw [assembleCells, if_pos h]

theorem assembleCells_isSome_iff (out : FMF) (n : ℕ) (body : ℕ → Option Slice) :
    (assembleCells out n body).isSome ↔ ∀ i, i < n → (body i).isSome := by
  by_cases h : ∀ i, i < n → (body i).isSome
  · rw [assembleCells_eq_some out n body h]
    exact ⟨fun _ => h, fun _ => rfl⟩
  · simp [assembleCells, h]

theorem assembleCells_dat (out : FMF) (n : ℕ) (body : ℕ → Option Slice)
    (r : FMF) (hr : assembleCells out n body = some r)
    (c : ℕ) (hc : c < n) (s : Slice) (hs : body c = some s) (l p : ℕ) :
    r.dat c l p = s.dat l p := by
  have h : ∀ i, i < n → (body i).isSome := by
    intro i hi
    by_contra hno
    rw [assembleCells, if_neg (fun hall => hno (hall i hi))] at hr
    cases hr
  rw [assembleCells_eq_some out n body h] at hr
  cases hr
  simp [hc, hs]

/-- Row-major flat index of an in-range entry is in range. -/
theorem rowcol_lt {i r j c : ℕ} (hi : i < r) (hj : j < c) : i * c + j < r * c :=
  calc i * c + j < i * c + c := Nat.add_lt_add_left hj _
  _ = (i + 1) * c := (Nat.succ_mul i c).symm
  _ ≤ r * c := Nat.mul_le_mul_right c hi

/-- Uniqueness of the row-major decomposition of a flat index. -/
theorem flatIdx_inj {n i j k l : ℕ} (hj : j < n) (hl : l < n)
    (h : i * n + j = k * n + l) : i = k ∧ j = l := by
  have hn : 0 < n := lt_of_le_of_lt (Nat.zero_le j) hj
  have hdiv : ∀ a b : ℕ, b < n → (a * n + b) / n = a := by
    intro a b hb
    rw [Nat.mul_comm a n, Nat.mul_add_div hn, Nat.div_eq_of_lt hb, Nat.add_zero]
  have hik : i = k := by
    have h1 := hdiv i j hj
    have h2 := hdiv k l hl
    rw [h] at h1
    exact h1.symm.trans h2
  subst hik
  exact ⟨rfl, Nat.add_left_cancel h⟩

/-! ## Entry lemmas for laplace_build_gtg -/

theorem laplace_build_gtg_fst (out gc : Slice)
    (h : gc.nRow = 2 ∨ gc.nRow = 3) : (laplace_build_gtg out gc).1 = true := by
  rcases h with h | h <;> simp [laplace_build_gtg, h]

theorem laplace_build_gtg_dims (out gc : Slice) :
    (laplace_build_gtg out gc).2.nLev = out.nLev ∧
    (laplace_build_gtg out gc).2.nRow = out.nRow ∧
    (laplace_build_gtg out gc).2.nCol = out.nCol := by
  rw [laplace_build_gtg]
  split_ifs <;> simp [fmf_fillC]

theorem mem_gtgWrites3 {nEP nCol : ℕ} {pg : ℕ → ℚ} {w : ℕ × ℚ}
    (hw : w ∈ gtgWrites3 nEP nCol pg) :
    ∃ ir, ir < nEP ∧ ∃ ic, ic < nEP ∧ w = (ir * nCol + ic,
      pg ir * pg ic + pg (nEP + ir) * pg (nEP + ic)
        + pg (2 * nEP + ir) * pg (2 * nEP + ic)) := by
  rw [gtgWrites3, List.mem_flatMap] at hw
  obtain ⟨ir, hir, hw⟩ := hw
  rw [List.mem_map] at hw
  obtain ⟨ic, hic, hw⟩ := hw
  exact ⟨ir, List.mem_range.mp hir, ic, List.mem_range.mp hic, hw.symm⟩

theorem mem_gtgWrites2 {nEP nCol : ℕ} {pg : ℕ → ℚ} {w : ℕ × ℚ}
    (hw : w ∈ gtgWrites2 nEP nCol pg) :
    ∃ ir, ir < nEP ∧ ∃ ic, ic < nEP ∧ w = (ir * nCol + ic,
      pg ir * pg ic + pg (nEP + ir) * pg (nEP + ic)) := by
  rw [gtgWrites2, List.mem_flatMap] at hw
  obtain ⟨ir, hir, hw⟩ := hw
  rw [List.mem_map] at hw
  obtain ⟨ic, hic, hw⟩ := hw
  exact ⟨ir, List.mem_range.mp hir, ic, List.mem_range.mp hic, hw.symm⟩

theorem applyWrites_gtgWrites3 (nEP nCol : ℕ) (pg : ℕ → ℚ) (f : ℕ → ℚ)
    {i j : ℕ} (hi : i < nEP) (hj : j < nEP) (hcol : nEP ≤ nCol) :
    applyWrites f (gtgWrites3 nEP nCol pg) (i * nCol + j) =
      pg i * pg j + pg (nEP + i) * pg (nEP + j)
        + pg (2 * nEP + i) * pg (2 * nEP + j) := by
  apply applyWrites_unique
  · rw [gtgWrites3, List.mem_flatMap]
    exact ⟨i, List.mem_range.mpr hi, List.mem_map.mpr
      ⟨j, List.mem_range.mpr hj, rfl⟩⟩
  · intro w hw hw1
    obtain ⟨ir, hir, ic, hic, rfl⟩ := mem_gtgWrites3 hw
    obtain ⟨h1, h2⟩ := flatIdx_inj (lt_of_lt_of_le hic hcol)
      (lt_of_lt_of_le hj hcol) hw1
    rw [h1, h2]

theorem applyWrites_gtgWrites2 (nEP nCol : ℕ) (pg : ℕ → ℚ) (f : ℕ → ℚ)
    {i j : ℕ} (hi : i < nEP) (hj : j < nEP) (hcol : nEP ≤ nCol) :
    applyWrites f (gtgWrites2 nEP nCol pg) (i * nCol + j) =
      pg i * pg j + pg (nEP + i) * pg (nEP + j) := by
  apply applyWrites_unique
  · rw [gtgWrites2, List.mem_flatMap]
    exact ⟨i, List.mem_range.mpr hi, List.mem_map.mpr
      ⟨j, List.mem_range.mpr hj, rfl⟩⟩
  · intro w hw hw1
    obtain ⟨ir, hir, ic, hic, rfl⟩ := mem_gtgWrites2 hw
    obtain ⟨h1, h2⟩ := flatIdx_inj (lt_of_lt_of_le hic hcol)
      (lt_of_lt_of_le hj hcol) hw1
    rw [h1, h2]

/-- The Gramian entry produced by `laplace_build_gtg` in the 3-D case. -/
theorem laplace_build_gtg_dat3 (out gc : Slice) (h3 : gc.nRow = 3)
    {l i j : ℕ} (hl : l < gc.nLev) (hi : i < gc.nCol) (hj : j < gc.nCol)
    (hcol : gc.nCol ≤ out.nCol) :
    (laplace_build_gtg out gc).2.dat l (i * out.nCol + j) =
      gc.dat l i * gc.dat l j
        + gc.dat l (gc.nCol + i) * gc.dat l (gc.nCol + j)
        + gc.dat l (2 * gc.nCol + i) * gc.dat l (2 * gc.nCol + j) := by
  simp only [laplace_build_gtg, h3, if_pos, if_true]
  rw [if_pos hl]
  exact applyWrites_gtgWrites3 gc.nCol out.nCol (gc.dat l) _ hi hj hcol

/-- The Gramian entry produced by `laplace_build_gtg` in the 2-D case. -/
theorem laplace_build_gtg_dat2 (out gc : Slice) (h2 : gc.nRow = 2)
    {l i j : ℕ} (hl : l < gc.nLev) (hi : i < gc.nCol) (hj : j < gc.nCol)
    (hcol : gc.nCol ≤ out.nCol) :
    (laplace_build_gtg out gc).2.dat l (i * out.nCol + j) =
      gc.dat l i * gc.dat l j
        + gc.dat l (gc.nCol + i) * gc.dat l (gc.nCol + j) := by
  simp only [laplace_build_gtg, h2]
  norm_num [hl]
  exact applyWrites_gtgWrites2 gc.nCol out.nCol (gc.dat l) _ hi hj hcol


/-! ## The dw_laplace cell computation in matrix mode -/

/-- The coefficient slice the cursor exposes for cell `ii`: a one-cell
coefficient stays on its only cell (broadcast, lines 232-233), a multi-cell
coefficient is positioned on cell `ii`. -/
def FMF.bcast (coef : FMF) (ii : ℕ) : Slice :=
  if 1 < coef.nCell then coef.cell ii else coef.cell 0

theorem bcast_sel (coef : FMF) (ii : ℕ) (h : 1 < coef.nCell → ii < coef.nCell) :
    (if 1 < coef.nCell then coef.setCell ii else some (coef.cell 0)) =
      some (coef.bcast ii) := by
  by_cases h1 : 1 < coef.nCell
  · simp [h1, FMF.setCell, h h1, FMF.bcast]
  · simp [h1, FMF.bcast]

theorem dwLaplaceCell_diff_eq (out grad coef : FMF) (vg : VolumeGeometry)
    (ii : ℕ) (ho : ii < out.nCell) (hg : ii < vg.bfGM.nCell)
    (hd : ii < vg.det.nCell) (hc : 1 < coef.nCell → ii < coef.nCell)
    (hdim : vg.bfGM.nRow = 2 ∨ vg.bfGM.nRow = 3) :
    dwLaplaceCell out grad coef vg true ii =
      some (fmf_sumLevelsMulF (out.cell ii)
        (fmf_mulAF
          (laplace_build_gtg (scratch vg.bfGM.nLev vg.bfGM.nCol vg.bfGM.nCol)
            (vg.bfGM.cell ii)).2
          (coef.bcast ii).flat)
        (vg.det.cell ii).flat) := by
  have hfst : (laplace_build_gtg (scratch vg.bfGM.nLev vg.bfGM.nCol vg.bfGM.nCol)
      (vg.bfGM.cell ii)).1 = true :=
    laplace_build_gtg_fst _ _ (by simpa [FMF.cell] using hdim)
  rw [dwLaplaceCell]
  by_cases h1 : 1 < coef.nCell
  · simp [FMF.setCell, ho, hg, hd, h1, hc h1, hfst, FMF.bcast, Option.bind]
  · simp [FMF.setCell, ho, hg, hd, h1, hfst, FMF.bcast, Option.bind]

theorem gram_expand3 (g : FMF) (ii q i j : ℕ) (h3 : g.nRow = 3) :
    (∑ d ∈ Finset.range g.nRow,
        g.dat ii q (d * g.nCol + i) * g.dat ii q (d * g.nCol + j)) =
      g.dat ii q i * g.dat ii q j
        + g.dat ii q (g.nCol + i) * g.dat ii q (g.nCol + j)
        + g.dat ii q (2 * g.nCol + i) * g.dat ii q (2 * g.nCol + j) := by
  rw [h3, Finset.sum_range_succ, Finset.sum_range_succ, Finset.sum_range_succ,
    Finset.sum_range_zero]
  norm_num

theorem gram_expand2 (g : FMF) (ii q i j : ℕ) (h2 : g.nRow = 2) :
    (∑ d ∈ Finset.range g.nRow,
        g.dat ii q (d * g.nCol + i) * g.dat ii q (d * g.nCol + j)) =
      g.dat ii q i * g.dat ii q j
        + g.dat ii q (g.nCol + i) * g.dat ii q (g.nCol + j) := by
  rw [h2, Finset.sum_range_succ, Finset.sum_range_succ, Finset.sum_range_zero]
  norm_num

theorem scratch_nLev (a b c : ℕ) : (scratch a b c).nLev = a := rfl

theorem scratch_nRow (a b c : ℕ) : (scratch a b c).nRow = b := rfl

theorem scratch_nCol (a b c : ℕ) : (scratch a b c).nCol = c := rfl

theorem laplace_build_gtg_scratch_dims (a b c : ℕ) (gc : Slice) :
    (laplace_build_gtg (scratch a b c) gc).2.nLev = a ∧
    (laplace_build_gtg (scratch a b c) gc).2.nRow = b ∧
    (laplace_build_gtg (scratch a b c) gc).2.nCol = c := by
  obtain ⟨h1, h2, h3⟩ := laplace_build_gtg_dims (scratch a b c) gc
  exact ⟨h1, h2, h3⟩

/-- Shared description of matrix-mode `dw_laplace`: on valid inputs the
evaluator succeeds, and every in-range entry of every processed cell is the
quadrature sum of determinant weight times coefficient times Gramian
entry. -/
theorem dw_laplace_diff_spec (out grad coef : FMF) (vg : VolumeGeometry)
    (hg : out.nCell ≤ vg.bfGM.nCell) (hd : out.nCell ≤ vg.det.nCell)
    (hc : 1 < coef.nCell → out.nCell ≤ coef.nCell)
    (hdim : vg.bfGM.nRow = 2 ∨ vg.bfGM.nRow = 3)
    (hrow : out.nRow = vg.bfGM.nCol) (hcol : out.nCol = vg.bfGM.nCol) :
    ∃ r, dw_laplace out grad coef vg true = some r ∧
      r.nCell = out.nCell ∧
      ∀ ii, ii < out.nCell → ∀ i, i < vg.bfGM.nCol → ∀ j, j < vg.bfGM.nCol →
        r.dat ii 0 (i * out.nCol + j) =
          ∑ q ∈ Finset.range vg.bfGM.nLev,
            (vg.det.cell ii).flat q * ((coef.bcast ii).flat q *
              ∑ d ∈ Finset.range vg.bfGM.nRow,
                vg.bfGM.dat ii q (d * vg.bfGM.nCol + i) *
                  vg.bfGM.dat ii q (d * vg.bfGM.nCol + j)) := by
  have hbody : ∀ ii, ii < out.nCell →
      dwLaplaceCell out grad coef vg true ii =
        some (fmf_sumLevelsMulF (out.cell ii)
          (fmf_mulAF
            (laplace_build_gtg (scratch vg.bfGM.nLev vg.bfGM.nCol vg.bfGM.nCol)
              (vg.bfGM.cell ii)).2
            (coef.bcast ii).flat)
          (vg.det.cell ii).flat) := fun ii hii =>
    dwLaplaceCell_diff_eq out grad coef vg ii hii (lt_of_lt_of_le hii hg)
      (lt_of_lt_of_le hii hd) (fun h1 => lt_of_lt_of_le hii (hc h1)) hdim
  have hsome : ∀ i, i < out.nCell →
      (dwLaplaceCell out grad coef vg true i).isSome := by
    intro i hi
    rw [hbody i hi]
    rfl
  have hr : dw_laplace out grad coef vg true =
      some ⟨out.nCell, out.nLev, out.nRow, out.nCol, fun c l p =>
        if c < out.nCell then
          ((dwLaplaceCell out grad coef vg true c).getD (scratch 0 0 0)).dat l p
        else out.dat c l p⟩ := by
    rw [dw_laplace]
    exact assembleCells_eq_some out out.nCell _ hsome
  refine ⟨_, hr, rfl, ?_⟩
  intro ii hii i hi j hj
  simp only [if_pos hii, hbody ii hii, Option.getD_some]
  obtain ⟨hL, hR, hC⟩ := laplace_build_gtg_scratch_dims vg.bfGM.nLev vg.bfGM.nCol
    vg.bfGM.nCol (vg.bfGM.cell ii)
  simp only [FMF.cell] at hL hR hC
  have hplt : i * out.nCol + j < out.nRow * out.nCol := by
    refine rowcol_lt ?_ ?_
    · rw [hrow]; exact hi
    · rw [hcol]; exact hj
  have hpg : i * out.nCol + j = i * vg.bfGM.nCol + j := by rw [hcol]
  rw [fmf_sumLevelsMulF]
  simp only [FMF.cell]
  rw [if_pos (⟨trivial, hplt⟩ :
    True ∧ i * out.nCol + j < out.nRow * out.nCol)]
  rw [fmf_mulAF]
  simp only [hL, hR, hC]
  apply Finset.sum_congr rfl
  intro q hq
  have hql : q < vg.bfGM.nLev := Finset.mem_range.mp hq
  have hplt2 : i * out.nCol + j < vg.bfGM.nCol * vg.bfGM.nCol := by
    rw [hpg]
    exact rowcol_lt hi hj
  rw [if_pos ⟨hql, hplt2⟩]
  congr 1
  rcases hdim with h2 | h3
  · have hdat := laplace_build_gtg_dat2
      (scratch vg.bfGM.nLev vg.bfGM.nCol vg.bfGM.nCol) (vg.bfGM.cell ii)
      (by simpa [FMF.cell] using h2) (l := q) (i := i) (j := j)
      (by simpa [FMF.cell] using hql) (by simpa [FMF.cell] using hi)
      (by simpa [FMF.cell] using hj) (by simp [FMF.cell, scratch_nCol])
    simp only [FMF.cell, scratch_nCol] at hdat
    rw [hpg, hdat, gram_expand2 vg.bfGM ii q i j h2]
  · have hdat := laplace_build_gtg_dat3
      (scratch vg.bfGM.nLev vg.bfGM.nCol vg.bfGM.nCol) (vg.bfGM.cell ii)
      (by simpa [FMF.cell] using h3) (l := q) (i := i) (j := j)
      (by simpa [FMF.cell] using hql) (by simpa [FMF.cell] using hi)
      (by simpa [FMF.cell] using hj) (by simp [FMF.cell, scratch_nCol])
    simp only [FMF.cell, scratch_nCol] at hdat
    rw [hpg, hdat, gram_expand3 vg.bfGM ii q i j h3]

/-! ## Claim C1 -/

/-- C1: for every valid input (`spaceDim ∈ {2,3}`), matrix-mode `dw_laplace`
(`isDiff` nonzero) writes, for each cell, the `localDofCount × localDofCount`
matrix `Σ_q w_q · coef_q · Gᵀ_q G_q`, whose `(i,j)` entry is
`Σ_q w_q · coef_q · Σ_d G_q[d,i] · G_q[d,j]`. -/
theorem dw_laplace_matrix_weighted_gramian (out grad coef : FMF)
    (vg : VolumeGeometry)
    (hg : out.nCell ≤ vg.bfGM.nCell) (hd : out.nCell ≤ vg.det.nCell)
    (hc : 1 < coef.nCell → out.nCell ≤ coef.nCell)
    (hdim : vg.bfGM.nRow = 2 ∨ vg.bfGM.nRow = 3)
    (hrow : out.nRow = vg.bfGM.nCol) (hcol : out.nCol = vg.bfGM.nCol) :
    ∃ r, dw_laplace out grad coef vg true = some r ∧
      r.nCell = out.nCell ∧
      ∀ ii, ii < out.nCell → ∀ i, i < vg.bfGM.nCol → ∀ j, j < vg.bfGM.nCol →
        r.dat ii 0 (i * out.nCol + j) =
          ∑ q ∈ Finset.range vg.bfGM.nLev,
            (vg.det.cell ii).flat q * (coef.bcast ii).flat q *
              ∑ d ∈ Finset.range vg.bfGM.nRow,
                vg.bfGM.dat ii q (d * vg.bfGM.nCol + i) *
                  vg.bfGM.dat ii q (d * vg.bfGM.nCol + j) := by
  obtain ⟨r, hr, hn, hdat⟩ := dw_laplace_diff_spec out grad coef vg hg hd hc hdim hrow hcol
  refine ⟨r, hr, hn, fun ii hii i hi j hj => ?_⟩
  rw [hdat ii hii i hi j hj]
  exact Finset.sum_congr rfl fun q _ => (mul_assoc _ _ _).symm

/-- The concrete C1 scenario: one 3-D cell, 4 local dofs, 1 quadrature
point. -/
def exOut1 : FMF := ⟨1, 1, 4, 4, fun _ _ _ => 0⟩

/-- The concrete 3 × 4 gradient matrix with known entries `G[d,i] = 4d+i+1`. -/
def exG1 : FMF := ⟨1, 1, 3, 4, fun _ _ p => (p : ℚ) + 1⟩

/-- Determinant weight 1.0. -/
def exDet1 : FMF := ⟨1, 1, 1, 1, fun _ _ _ => 1⟩

/-- Constant scalar coefficient 2.0. -/
def exCoef1 : FMF := ⟨1, 1, 1, 1, fun _ _ _ => 2⟩

theorem dw_laplace_matrix_weighted_gramian_witness :
    (exOut1.nCell ≤ exG1.nCell ∧ exOut1.nCell ≤ exDet1.nCell ∧
      (1 < exCoef1.nCell → exOut1.nCell ≤ exCoef1.nCell) ∧
      (exG1.nRow = 2 ∨ exG1.nRow = 3) ∧
      exOut1.nRow = exG1.nCol ∧ exOut1.nCol = exG1.nCol) ∧
    (∃ r, dw_laplace exOut1 exOut1 exCoef1 ⟨exG1, exDet1⟩ true = some r ∧
      r.nCell = exOut1.nCell ∧
      ∀ ii, ii < exOut1.nCell → ∀ i, i < exG1.nCol → ∀ j, j < exG1.nCol →
        r.dat ii 0 (i * exOut1.nCol + j) =
          ∑ q ∈ Finset.range exG1.nLev,
            (exDet1.cell ii).flat q * (exCoef1.bcast ii).flat q *
              ∑ d ∈ Finset.range exG1.nRow,
                exG1.dat ii q (d * exG1.nCol + i) * exG1.dat ii q (d * exG1.nCol + j)) :=
  ⟨⟨by decide, by decide, by decide, by decide, by decide, by decide⟩,
    dw_laplace_matrix_weighted_gramian exOut1 exOut1 exCoef1 ⟨exG1, exDet1⟩
      (by decide) (by decide) (by decide) (by decide) (by decide) (by decide)⟩

/-! ## Claim C5 -/

theorem listRange1 : List.range 1 = [0] := by decide

theorem listRange2 : List.range 2 = [0, 1] := by decide

/-- The weighted Gramian quadratic form with nonnegative weights is
nonnegative. -/
theorem gram_quadform_nonneg (nEP nQP dim : ℕ) (a : ℕ → ℚ) (G : ℕ → ℕ → ℕ → ℚ)
    (ha : ∀ q, q < nQP → 0 ≤ a q) (x : ℕ → ℚ) :
    0 ≤ ∑ i ∈ Finset.range nEP, ∑ j ∈ Finset.range nEP,
        x i * (∑ q ∈ Finset.range nQP,
          a q * ∑ d ∈ Finset.range dim, G q d i * G q d j) * x j := by
  have key : (∑ i ∈ Finset.range nEP, ∑ j ∈ Finset.range nEP,
      x i * (∑ q ∈ Finset.range nQP,
        a q * ∑ d ∈ Finset.range dim, G q d i * G q d j) * x j)
      = ∑ q ∈ Finset.range nQP, a q * ∑ d ∈ Finset.range dim,
          (∑ i ∈ Finset.range nEP, x i * G q d i) *
            (∑ i ∈ Finset.range nEP, x i * G q d i) := by
    calc
      ∑ i ∈ Finset.range nEP, ∑ j ∈ Finset.range nEP,
          x i * (∑ q ∈ Finset.range nQP,
            a q * ∑ d ∈ Finset.range dim, G q d i * G q d j) * x j
        = ∑ i ∈ Finset.range nEP, ∑ j ∈ Finset.range nEP, ∑ q ∈ Finset.range nQP,
            x i * (a q * ∑ d ∈ Finset.range dim, G q d i * G q d j) * x j := by
          refine Finset.sum_congr rfl fun i _ => Finset.sum_congr rfl fun j _ => ?_
          rw [Finset.mul_sum, Finset.sum_mul]
      _ = ∑ i ∈ Finset.range nEP, ∑ q ∈ Finset.range nQP, ∑ j ∈ Finset.range nEP,
            x i * (a q * ∑ d ∈ Finset.range dim, G q d i * G q d j) * x j :=
          Finset.sum_congr rfl fun i _ => Finset.sum_comm
      _ = ∑ q ∈ Finset.range nQP, ∑ i ∈ Finset.range nEP, ∑ j ∈ Finset.range nEP,
            x i * (a q * ∑ d ∈ Finset.range dim, G q d i * G q d j) * x j :=
          Finset.sum_comm
      _ = ∑ q ∈ Finset.range nQP, a q * ∑ d ∈ Finset.range dim,
            (∑ i ∈ Finset.range nEP, x i * G q d i) *
              (∑ i ∈ Finset.range nEP, x i * G q d i) := by
          refine Finset.sum_congr rfl fun q _ => ?_
          calc
            ∑ i ∈ Finset.range nEP, ∑ j ∈ Finset.range nEP,
                x i * (a q * ∑ d ∈ Finset.range dim, G q d i * G q d j) * x j
              = ∑ i ∈ Finset.range nEP, ∑ j ∈ Finset.range nEP,
                  a q * (x i * (∑ d ∈ Finset.range dim, G q d i * G q d j) * x j) := by
                refine Finset.sum_congr rfl fun i _ => Finset.sum_congr rfl fun j _ => ?_
                ring
            _ = a q * ∑ i ∈ Finset.range nEP, ∑ j ∈ Finset.range nEP,
                  x i * (∑ d ∈ Finset.range dim, G q d i * G q d j) * x j := by
                rw [Finset.mul_sum]
                refine Finset.sum_congr rfl fun i _ => ?_
                rw [Finset.mul_sum]
            _ = a q * ∑ d ∈ Finset.range dim,
                  (∑ i ∈ Finset.range nEP, x i * G q d i) *
                    (∑ i ∈ Finset.range nEP, x i * G q d i) := by
                congr 1
                calc
                  ∑ i ∈ Finset.range nEP, ∑ j ∈ Finset.range nEP,
                      x i * (∑ d ∈ Finset.range dim, G q d i * G q d j) * x j
                    = ∑ i ∈ Finset.range nEP, ∑ j ∈ Finset.range nEP,
                        ∑ d ∈ Finset.range dim, x i * (G q d i * G q d j) * x j := by
                      refine Finset.sum_congr rfl fun i _ =>
                        Finset.sum_congr rfl fun j _ => ?_
                      rw [Finset.mul_sum, Finset.sum_mul]
                  _ = ∑ i ∈ Finset.range nEP, ∑ d ∈ Finset.range dim,
                        ∑ j ∈ Finset.range nEP, x i * (G q d i * G q d j) * x j :=
                      Finset.sum_congr rfl fun i _ => Finset.sum_comm
                  _ = ∑ d ∈ Finset.range dim, ∑ i ∈ Finset.range nEP,
                        ∑ j ∈ Finset.range nEP, x i * (G q d i * G q d j) * x j :=
                      Finset.sum_comm
                  _ = ∑ d ∈ Finset.range dim,
                        (∑ i ∈ Finset.range nEP, x i * G q d i) *
                          (∑ i ∈ Finset.range nEP, x i * G q d i) := by
                      refine Finset.sum_congr rfl fun d _ => ?_
                      rw [Finset.sum_mul_sum]
                      refine Finset.sum_congr rfl fun i _ =>
                        Finset.sum_congr rfl fun j _ => ?_
                      ring
  rw [key]
  refine Finset.sum_nonneg fun q hq => ?_
  refine mul_nonneg (ha q (Finset.mem_range.mp hq)) ?_
  exact Finset.sum_nonneg fun d _ => mul_self_nonneg _

/-- C5 counterexample input: one 2-D cell, 1 local dof, gradient `(1,0)ᵀ`. -/
def exG5 : FMF := ⟨1, 1, 2, 1, fun _ _ p => if p = 0 then 1 else 0⟩

/-- C5 counterexample input: a 1 × 1 output buffer. -/
def exOut5 : FMF := ⟨1, 1, 1, 1, fun _ _ _ => 0⟩

/-- C5 counterexample input: coefficient constant `-1`, a valid scalar
coefficient buffer the evaluator accepts. -/
def exCoef5 : FMF := ⟨1, 1, 1, 1, fun _ _ _ => -1⟩

/-- C5 counterexample: with the (valid) coefficient `-1`, determinant weight
`1` and gradient `(1,0)ᵀ`, matrix-mode `dw_laplace` produces the 1 × 1 cell
matrix `(-1)`, whose quadratic form at `x = 1` is `-1 < 0`: the output is not
positive semi-definite, so C5 as stated fails. -/
theorem dw_laplace_psd_counterexample :
    (dw_laplace exOut5 exOut5 exCoef5 ⟨exG5, exDet1⟩ true).map
      (fun r => r.dat 0 0 0) = some (-1) ∧ ¬ (0 ≤ (-1 : ℚ)) := by
  constructor
  · have hs : ∀ i, i < exOut5.nCell →
        (dwLaplaceCell exOut5 exOut5 exCoef5 ⟨exG5, exDet1⟩ true i).isSome := by
      decide
    rw [dw_laplace, assembleCells_eq_some _ _ _ hs]
    norm_num [dwLaplaceCell, exOut5, exG5, exCoef5, exDet1, FMF.setCell, FMF.cell,
      laplace_build_gtg, gtgWrites2, applyWrites, wrt, scratch, fmf_fillC,
      fmf_mulAF, fmf_sumLevelsMulF, Slice.flat, Finset.sum_range_succ,
      listRange1, Option.bind]
  · norm_num

/-- C5 (amended): on valid inputs, every per-cell output matrix of
matrix-mode `dw_laplace` is symmetric, and it is positive semi-definite
whenever every product of determinant weight and coefficient value is
nonnegative (the code accepts negative coefficients, for which the output is
not positive semi-definite — see the counterexample). -/
theorem dw_laplace_matrix_symm_psd (out grad coef : FMF) (vg : VolumeGeometry)
    (hg : out.nCell ≤ vg.bfGM.nCell) (hd : out.nCell ≤ vg.det.nCell)
    (hc : 1 < coef.nCell → out.nCell ≤ coef.nCell)
    (hdim : vg.bfGM.nRow = 2 ∨ vg.bfGM.nRow = 3)
    (hrow : out.nRow = vg.bfGM.nCol) (hcol : out.nCol = vg.bfGM.nCol) :
    ∃ r, dw_laplace out grad coef vg true = some r ∧
      (∀ ii, ii < out.nCell → ∀ i, i < vg.bfGM.nCol → ∀ j, j < vg.bfGM.nCol →
        r.dat ii 0 (i * out.nCol + j) = r.dat ii 0 (j * out.nCol + i)) ∧
      (∀ ii, ii < out.nCell →
        (∀ q, 0 ≤ (vg.det.cell ii).flat q * (coef.bcast ii).flat q) →
        ∀ x : ℕ → ℚ,
          0 ≤ ∑ i ∈ Finset.range vg.bfGM.nCol, ∑ j ∈ Finset.range vg.bfGM.nCol,
            x i * r.dat ii 0 (i * out.nCol + j) * x j) := by
  obtain ⟨r, hr, hn, hdat⟩ :=
    dw_laplace_diff_spec out grad coef vg hg hd hc hdim hrow hcol
  refine ⟨r, hr, ?_, ?_⟩
  · intro ii hii i hi j hj
    rw [hdat ii hii i hi j hj, hdat ii hii j hj i hi]
    refine Finset.sum_congr rfl fun q _ => ?_
    have hsym : (∑ d ∈ Finset.range vg.bfGM.nRow,
        vg.bfGM.dat ii q (d * vg.bfGM.nCol + i) *
          vg.bfGM.dat ii q (d * vg.bfGM.nCol + j))
        = ∑ d ∈ Finset.range vg.bfGM.nRow,
            vg.bfGM.dat ii q (d * vg.bfGM.nCol + j) *
              vg.bfGM.dat ii q (d * vg.bfGM.nCol + i) :=
      Finset.sum_congr rfl fun d _ => mul_comm _ _
    rw [hsym]
  · intro ii hii hpos x
    have hrw : (∑ i ∈ Finset.range vg.bfGM.nCol, ∑ j ∈ Finset.range vg.bfGM.nCol,
        x i * r.dat ii 0 (i * out.nCol + j) * x j)
        = ∑ i ∈ Finset.range vg.bfGM.nCol, ∑ j ∈ Finset.range vg.bfGM.nCol,
            x i * (∑ q ∈ Finset.range vg.bfGM.nLev,
              ((vg.det.cell ii).flat q * (coef.bcast ii).flat q) *
                ∑ d ∈ Finset.range vg.bfGM.nRow,
                  vg.bfGM.dat ii q (d * vg.bfGM.nCol + i) *
                    vg.bfGM.dat ii q (d * vg.bfGM.nCol + j)) * x j := by
      refine Finset.sum_congr rfl fun i hi => Finset.sum_congr rfl fun j hj => ?_
      rw [hdat ii hii i (Finset.mem_range.mp hi) j (Finset.mem_range.mp hj)]
      have hassoc : (∑ q ∈ Finset.range vg.bfGM.nLev,
          (vg.det.cell ii).flat q * ((coef.bcast ii).flat q *
            ∑ d ∈ Finset.range vg.bfGM.nRow,
              vg.bfGM.dat ii q (d * vg.bfGM.nCol + i) *
                vg.bfGM.dat ii q (d * vg.bfGM.nCol + j)))
          = ∑ q ∈ Finset.range vg.bfGM.nLev,
              ((vg.det.cell ii).flat q * (coef.bcast ii).flat q) *
                ∑ d ∈ Finset.range vg.bfGM.nRow,
                  vg.bfGM.dat ii q (d * vg.bfGM.nCol + i) *
                    vg.bfGM.dat ii q (d * vg.bfGM.nCol + j) :=
        Finset.sum_congr rfl fun q _ => (mul_assoc _ _ _).symm
      rw [hassoc]
    rw [hrw]
    exact gram_quadform_nonneg vg.bfGM.nCol vg.bfGM.nLev vg.bfGM.nRow
      (fun q => (vg.det.cell ii).flat q * (coef.bcast ii).flat q)
      (fun q d i => vg.bfGM.dat ii q (d * vg.bfGM.nCol + i))
      (fun q _ => hpos q) x

theorem dw_laplace_matrix_symm_psd_witness :
    (exOut1.nCell ≤ exG1.nCell ∧ exOut1.nCell ≤ exDet1.nCell ∧
      (1 < exCoef1.nCell → exOut1.nCell ≤ exCoef1.nCell) ∧
      (exG1.nRow = 2 ∨ exG1.nRow = 3) ∧
      exOut1.nRow = exG1.nCol ∧ exOut1.nCol = exG1.nCol) ∧
    (∃ r, dw_laplace exOut1 exOut1 exCoef1 ⟨exG1, exDet1⟩ true = some r ∧
      (∀ ii, ii < exOut1.nCell → ∀ i, i < exG1.nCol → ∀ j, j < exG1.nCol →
        r.dat ii 0 (i * exOut1.nCol + j) = r.dat ii 0 (j * exOut1.nCol + i)) ∧
      (∀ ii, ii < exOut1.nCell →
        (∀ q, 0 ≤ (exDet1.cell ii).flat q * (exCoef1.bcast ii).flat q) →
        ∀ x : ℕ → ℚ,
          0 ≤ ∑ i ∈ Finset.range exG1.nCol, ∑ j ∈ Finset.range exG1.nCol,
            x i * r.dat ii 0 (i * exOut1.nCol + j) * x j)) :=
  ⟨⟨by decide, by decide, by decide, by decide, by decide, by decide⟩,
    dw_laplace_matrix_symm_psd exOut1 exOut1 exCoef1 ⟨exG1, exDet1⟩
      (by decide) (by decide) (by decide) (by decide) (by decide) (by decide)⟩

/-! ## Claim C2 -/

/-- C2 counterexample input: a 4-row gradient slice (`spaceDim = 4`). -/
def exGc2 : Slice := ⟨1, 4, 1, fun _ _ => 5⟩

/-- C2 counterexample input: an output slice whose entries are all `1`. -/
def exOutS2 : Slice := ⟨1, 1, 1, fun _ _ => 1⟩

/-- C2 counterexample: with `spaceDim = 4` the builder does return the
failure status, but the output buffer is not left unchanged — entry `(0,0)`
was `1` before the call and is `0` after it, because the zero-fill at line 20
runs before the dimension switch. -/
theorem laplace_build_gtg_dim_fault_counterexample :
    (laplace_build_gtg exOutS2 exGc2).1 = false ∧
    exOutS2.dat 0 0 = 1 ∧
    (laplace_build_gtg exOutS2 exGc2).2.dat 0 0 = 0 := by
  refine ⟨by decide, by decide, by decide⟩

/-- C2 (amended): for a gradient buffer whose row count is neither 2 nor 3,
`laplace_build_gtg` returns the failure status and leaves the output buffer
zero-filled (the `fmf_fillC` at line 20 runs before the dimension switch), not
unchanged. -/
theorem laplace_build_gtg_dim_fault (out gc : Slice)
    (h2 : gc.nRow ≠ 2) (h3 : gc.nRow ≠ 3) :
    laplace_build_gtg out gc = (false, fmf_fillC out 0) := by
  simp [laplace_build_gtg, h2, h3]

theorem laplace_build_gtg_dim_fault_witness :
    (exGc2.nRow ≠ 2 ∧ exGc2.nRow ≠ 3) ∧
    laplace_build_gtg exOutS2 exGc2 = (false, fmf_fillC exOutS2 0) :=
  ⟨⟨by decide, by decide⟩,
    laplace_build_gtg_dim_fault exOutS2 exGc2 (by decide) (by decide)⟩

/-! ## Claim C10 -/

/-- C10: matrix-mode `dw_laplace` never reads its `grad` argument — two
matrix-mode invocations differing only in `grad` return the same status and
output (the `grad` cursor positioning and `laplace_act_gt_m` live only in the
vector-mode branch, lines 240-243). -/
theorem dw_laplace_matrix_ignores_grad (out coef : FMF) (vg : VolumeGeometry)
    (grad1 grad2 : FMF) :
    dw_laplace out grad1 coef vg true = dw_laplace out grad2 coef vg true := rfl

/-! ## Claim C4 -/

/-- C4 failing input: 2-D gradient `(1,1)ᵀ` for one local dof. -/
def exGc4 : Slice := ⟨1, 2, 1, fun _ p => if p = 0 then 1 else if p = 1 then 1 else 0⟩

/-- C4 failing input: the `1 × 2` matrix `M = (1 2)`, so `colCount = 2`. -/
def exM4 : Slice := ⟨1, 1, 2, fun _ p => if p = 0 then 1 else if p = 1 then 2 else 0⟩

/-- C4, evaluation at the failing input: `laplace_act_g_m` returns success,
but the row-major entry `(d,c) = (1,0)` of its output (flat offset
`1*colCount + 0 = 2`) holds `2`, while the product `G·M` has
`(G·M)[1,0] = Σ_k G[1,k]·M[k,0] = 1` there: for `colCount > 1` the writes
`pout[ic+0], pout[ic+1], pout[ic+2]` (lines 103-105/128-129) overlap instead
of using a `colCount` stride, so the claimed layout is not produced. -/
theorem laplace_act_g_m_layout_bug :
    (laplace_act_g_m (scratch 1 2 2) exGc4 exM4).1 = true ∧
    (laplace_act_g_m (scratch 1 2 2) exGc4 exM4).2.dat 0 (1 * exM4.nCol + 0) = 2 ∧
    (∑ k ∈ Finset.range exGc4.nCol,
      exGc4.dat 0 (1 * exGc4.nCol + k) * exM4.dat 0 (k * exM4.nCol + 0)) = 1 := by
  refine ⟨by decide, ?_, ?_⟩
  · norm_num [laplace_act_g_m, actGMWrites2, applyWrites, wrt, scratch, exGc4,
      exM4, Finset.sum_range_succ, listRange2, List.flatMap_cons]
  · norm_num [exGc4, exM4, Finset.sum_range_succ]

/-! ## Claim C3 -/

/-- C3 counterexample input: a two-cell output for `d_surface_flux`. -/
def exOutF : FMF := ⟨2, 1, 1, 1, fun _ _ _ => 0⟩

/-- C3 counterexample input: a two-cell gradient field, value 1. -/
def exGradF : FMF := ⟨2, 1, 1, 1, fun _ _ _ => 1⟩

/-- C3 counterexample input: the coefficient with `cellCount = 1`, value 2. -/
def exMtx1F : FMF := ⟨1, 1, 1, 1, fun _ _ _ => 2⟩

/-- C3 counterexample input: the same coefficient value replicated into a
`cellCount = 2` buffer. -/
def exMtxNF : FMF := ⟨2, 1, 1, 1, fun _ _ _ => 2⟩

/-- C3 counterexample input: a two-cell surface geometry with unit normals,
unit weights and unit areas. -/
def exSgF : SurfaceGeometry :=
  ⟨⟨2, 1, 1, 1, fun _ _ _ => 1⟩, ⟨2, 1, 1, 1, fun _ _ _ => 1⟩,
    ⟨2, 1, 1, 1, fun _ _ _ => 1⟩⟩

/-- C3 counterexample: `d_surface_flux` positions the coefficient cursor on
every loop index unconditionally (line 589), so with a `cellCount = 1`
coefficient and a two-cell batch the second iteration positions the cursor
out of range and the evaluation faults, while the replicated coefficient
yields a successful per-cell result (value 2 on cell 1): the outputs are not
identical, falsifying the "every term evaluator" broadcast claim. -/
theorem d_surface_flux_broadcast_counterexample :
    (d_surface_flux exOutF exGradF exMtx1F exSgF 0).isNone = true ∧
    (d_surface_flux exOutF exGradF exMtxNF exSgF 0).map
      (fun r => r.dat 1 0 0) = some 2 := by
  constructor
  · decide
  · have hs : ∀ i, i < exOutF.nCell →
        (dSurfaceFluxCell exOutF exGradF exMtxNF exSgF 0 i).isSome := by
      decide
    rw [d_surface_flux, assembleCells_eq_some _ _ _ hs]
    norm_num [dSurfaceFluxCell, exOutF, exGradF, exMtxNF, exSgF, FMF.setCell,
      FMF.cell, fmf_mulAB_nn, fmf_mulATB_nn, mulAB_dat, mulATB_dat,
      fmf_sumLevelsMulF, Slice.flat, Finset.sum_range_succ, Option.bind]

/-- C3 (amended): the broadcast rule holds for the evaluators that position
the coefficient cursor conditionally, here `dw_laplace` (lines 232-233, both
modes): a `cellCount = 1` coefficient produces exactly the same result as the
same values replicated into a `cellCount = batchSize` buffer. -/
theorem dw_laplace_coef_broadcast (out grad coef1 coefN : FMF)
    (vg : VolumeGeometry) (isDiff : Bool)
    (h1 : coef1.nCell = 1) (hN : coefN.nCell = out.nCell)
    (hL : coefN.nLev = coef1.nLev) (hR : coefN.nRow = coef1.nRow)
    (hC : coefN.nCol = coef1.nCol)
    (hdat : ∀ c l p, coefN.dat c l p = coef1.dat 0 l p) :
    dw_laplace out grad coefN vg isDiff = dw_laplace out grad coef1 vg isDiff := by
  have hcell : ∀ c, coefN.cell c = coef1.cell 0 := by
    intro c
    rw [FMF.cell, FMF.cell, hL, hR, hC]
    congr 1
    funext l p
    exact hdat c l p
  have hc1 : ¬ 1 < coef1.nCell := by rw [h1]; decide
  have hbody : ∀ i, i < out.nCell →
      dwLaplaceCell out grad coefN vg isDiff i =
        dwLaplaceCell out grad coef1 vg isDiff i := by
    intro i hi
    have hin : i < coefN.nCell := by rw [hN]; exact hi
    have hbind : ∀ f : Slice → Option Slice,
        (if 1 < coefN.nCell then coefN.setCell i >>= f
         else some (coefN.cell 0) >>= f) =
        (if 1 < coef1.nCell then coef1.setCell i >>= f
         else some (coef1.cell 0) >>= f) := by
      intro f
      rw [if_neg hc1]
      by_cases hn : 1 < coefN.nCell
      · rw [if_pos hn, FMF.setCell, if_pos hin, hcell i]
      · rw [if_neg hn, hcell 0]
    have bindc : ∀ {α β : Type} (x : Option α) (f fe : α → Option β),
        (∀ a, f a = fe a) → x >>= f = x >>= fe := by
      intro α β x f fe h
      cases x
      · rfl
      · exact h _
    simp only [dwLaplaceCell]
    refine bindc _ _ _ fun outS => ?_
    refine bindc _ _ _ fun g => ?_
    refine bindc _ _ _ fun d => ?_
    exact hbind _
  rw [dw_laplace, dw_laplace]
  by_cases hall : ∀ i, i < out.nCell →
      (dwLaplaceCell out grad coefN vg isDiff i).isSome
  · have hall1 : ∀ i, i < out.nCell →
        (dwLaplaceCell out grad coef1 vg isDiff i).isSome := by
      intro i hi
      rw [← hbody i hi]
      exact hall i hi
    rw [assembleCells_eq_some _ _ _ hall, assembleCells_eq_some _ _ _ hall1]
    congr 1
    congr 1
    funext c l p
    by_cases hc : c < out.nCell
    · simp only [if_pos hc, hbody c hc]
    · simp only [if_neg hc]
  · have hall1 : ¬ ∀ i, i < out.nCell →
        (dwLaplaceCell out grad coef1 vg isDiff i).isSome := by
      intro hsome1
      exact hall fun i hi => by rw [hbody i hi]; exact hsome1 i hi
    rw [assembleCells, assembleCells, if_neg hall, if_neg hall1]

/-- C3 witness inputs: a two-cell batch for `dw_laplace` in 2-D. -/
def exOut3 : FMF := ⟨2, 1, 1, 1, fun _ _ _ => 0⟩

/-- C3 witness inputs: a two-cell 2-D gradient buffer. -/
def exG3 : FMF := ⟨2, 1, 2, 1, fun _ _ p => if p = 0 then 1 else 0⟩

/-- C3 witness inputs: two-cell determinant weights. -/
def exDet3 : FMF := ⟨2, 1, 1, 1, fun _ _ _ => 1⟩

/-- C3 witness inputs: the one-cell coefficient, value 2. -/
def exCoef3a : FMF := ⟨1, 1, 1, 1, fun _ _ _ => 2⟩

/-- C3 witness inputs: the replicated two-cell coefficient, value 2. -/
def exCoef3b : FMF := ⟨2, 1, 1, 1, fun _ _ _ => 2⟩

theorem dw_laplace_coef_broadcast_witness :
    (exCoef3a.nCell = 1 ∧ exCoef3b.nCell = exOut3.nCell ∧
      exCoef3b.nLev = exCoef3a.nLev ∧ exCoef3b.nRow = exCoef3a.nRow ∧
      exCoef3b.nCol = exCoef3a.nCol ∧
      (∀ c l p, exCoef3b.dat c l p = exCoef3a.dat 0 l p)) ∧
    dw_laplace exOut3 exG3 exCoef3b ⟨exG3, exDet3⟩ true =
      dw_laplace exOut3 exG3 exCoef3a ⟨exG3, exDet3⟩ true :=
  ⟨⟨by decide, by decide, by decide, by decide, by decide, fun _ _ _ => rfl⟩,
    dw_laplace_coef_broadcast exOut3 exG3 exCoef3a exCoef3b ⟨exG3, exDet3⟩ true
      (by decide) (by decide) (by decide) (by decide) (by decide)
      (fun _ _ _ => rfl)⟩

/-! ## Surface flux: shared lemmas for C6 and C9 -/

theorem FMF.setCell_eq (a : FMF) (ii : ℕ) (h : ii < a.nCell) :
    a.setCell ii = some (a.cell ii) := by
  rw [FMF.setCell, if_pos h]

theorem bind_some_elim {α β : Type} (x : Option α) (f : α → Option β) (b : β)
    (h : x >>= f = some b) : ∃ a, x = some a ∧ f a = some b := by
  cases x with
  | none => cases h
  | some a => exact ⟨a, rfl, h⟩

theorem assembleCells_congr (out : FMF) (n : ℕ) (b1 b2 : ℕ → Option Slice)
    (h : ∀ i, i < n → b1 i = b2 i) :
    assembleCells out n b1 = assembleCells out n b2 := by
  by_cases hall : ∀ i, i < n → (b1 i).isSome
  · have hall2 : ∀ i, i < n → (b2 i).isSome := by
      intro i hi
      rw [← h i hi]
      exact hall i hi
    rw [assembleCells_eq_some _ _ _ hall, assembleCells_eq_some _ _ _ hall2]
    congr 1
    congr 1
    funext c l p
    by_cases hcn : c < n
    · simp only [if_pos hcn, h c hcn]
    · simp only [if_neg hcn]
  · have hall2 : ¬ ∀ i, i < n → (b2 i).isSome := by
      intro hsome2
      exact hall fun i hi => by rw [h i hi]; exact hsome2 i hi
    rw [assembleCells, assembleCells, if_neg hall, if_neg hall2]

/-- Whenever a `d_surface_flux` cell body succeeds, its result has the shape
of the output cell (the reduction writes into the output slice, the mean-mode
scaling preserves it). -/
theorem dSurfaceFluxCell_shape (out grad mtxD : FMF) (sg : SurfaceGeometry)
    (mode : ℤ) (ii : ℕ) (s : Slice)
    (h : dSurfaceFluxCell out grad mtxD sg mode ii = some s) :
    s.nLev = out.nLev ∧ s.nRow = out.nRow ∧ s.nCol = out.nCol := by
  rw [dSurfaceFluxCell] at h
  obtain ⟨outS, houtS, h⟩ := bind_some_elim _ _ _ h
  obtain ⟨g, hg, h⟩ := bind_some_elim _ _ _ h
  obtain ⟨m, hm, h⟩ := bind_some_elim _ _ _ h
  obtain ⟨n, hn, h⟩ := bind_some_elim _ _ _ h
  obtain ⟨d, hd, h⟩ := bind_some_elim _ _ _ h
  obtain ⟨dgp, hdgp, h⟩ := bind_some_elim _ _ _ h
  obtain ⟨ntdgp, hntdgp, h⟩ := bind_some_elim _ _ _ h
  have houtSc : outS = out.cell ii := by
    rw [FMF.setCell] at houtS
    by_cases hb : ii < out.nCell
    · rw [if_pos hb] at houtS
      exact (Option.some.injEq _ _ ▸ houtS).symm
    · rw [if_neg hb] at houtS
      cases houtS
  by_cases hmode : mode = 1
  · rw [if_pos hmode] at h
    obtain ⟨a, ha, h⟩ := bind_some_elim _ _ _ h
    have hs : s = fmf_mulC (fmf_sumLevelsMulF outS ntdgp d.flat) (1 / a.dat 0 0) :=
      ((Option.some.injEq _ _).mp h).symm
    rw [hs, houtSc]
    exact ⟨rfl, rfl, rfl⟩
  · rw [if_neg hmode] at h
    have hs : s = fmf_sumLevelsMulF outS ntdgp d.flat :=
      ((Option.some.injEq _ _).mp h).symm
    rw [hs, houtSc]
    exact ⟨rfl, rfl, rfl⟩

theorem optionBind_congr {α β : Type} (x : Option α) (f fe : α → Option β)
    (h : ∀ a, f a = fe a) : x >>= f = x >>= fe := by
  cases x
  · rfl
  · exact h _

theorem optionBindMem_congr {α β : Type} (x : Option α) (f fe : α → Option β)
    (h : ∀ a, x = some a → f a = fe a) : x >>= f = x >>= fe := by
  cases x
  · rfl
  · exact h _ rfl

theorem optionMap_bind {α β γ : Type} (gf : β → γ) (x : Option α)
    (f : α → Option β) :
    Option.map gf (x >>= f) = x >>= fun a => Option.map gf (f a) := by
  cases x <;> rfl

/-- On a valid cell, the total-flux body of `d_surface_flux` succeeds. -/
theorem dSurfaceFluxCell_zero_isSome (out grad mtxD : FMF) (sg : SurfaceGeometry)
    (ii : ℕ) (hb0 : ii < out.nCell) (hb1 : ii < grad.nCell)
    (hb2 : ii < mtxD.nCell) (hb3 : ii < sg.normal.nCell) (hb4 : ii < sg.det.nCell)
    (hs1 : mtxD.nLev = grad.nLev) (hs2 : mtxD.nCol = grad.nRow)
    (hs3 : sg.normal.nLev = mtxD.nLev) (hs4 : sg.normal.nRow = mtxD.nRow) :
    (dSurfaceFluxCell out grad mtxD sg 0 ii).isSome := by
  simp [dSurfaceFluxCell, FMF.setCell_eq out ii hb0, FMF.setCell_eq grad ii hb1,
    FMF.setCell_eq mtxD ii hb2, FMF.setCell_eq sg.normal ii hb3,
    FMF.setCell_eq sg.det ii hb4, fmf_mulAB_nn, fmf_mulATB_nn, mulAB_dat,
    mulATB_dat, FMF.cell, hs1, hs2, hs3, hs4, Option.bind]

/-- The mean-flux body is the total-flux body post-composed with the
in-place scaling by `1 / facetArea` (lines 597-600). -/
theorem dSurfaceFluxCell_mean_eq_map (out grad mtxD : FMF) (sg : SurfaceGeometry)
    (ii : ℕ) (hb5 : ii < sg.area.nCell) :
    dSurfaceFluxCell out grad mtxD sg 1 ii =
      (dSurfaceFluxCell out grad mtxD sg 0 ii).map
        (fun s => fmf_mulC s (1 / (sg.area.cell ii).dat 0 0)) := by
  simp only [dSurfaceFluxCell]
  rw [optionMap_bind]
  refine optionBind_congr _ _ _ fun outS => ?_
  rw [optionMap_bind]
  refine optionBind_congr _ _ _ fun g => ?_
  rw [optionMap_bind]
  refine optionBind_congr _ _ _ fun m => ?_
  rw [optionMap_bind]
  refine optionBind_congr _ _ _ fun n => ?_
  rw [optionMap_bind]
  refine optionBind_congr _ _ _ fun d => ?_
  rw [optionMap_bind]
  refine optionBind_congr _ _ _ fun dgp => ?_
  rw [optionMap_bind]
  refine optionBind_congr _ _ _ fun ntdgp => ?_
  rw [if_pos trivial, if_neg (by decide : ¬ (0 : ℤ) = 1)]
  rw [FMF.setCell_eq sg.area ii hb5]
  rfl

/-! ## Claim C6 -/

/-- C6: on valid inputs, mean-flux mode (`mode = 1`) of `d_surface_flux`
returns, for every cell, exactly the total-flux mode (`mode = 0`) value
divided by that cell's facet area. -/
theorem d_surface_flux_mean_is_total_div_area (out grad mtxD : FMF)
    (sg : SurfaceGeometry)
    (hb1 : out.nCell ≤ grad.nCell) (hb2 : out.nCell ≤ mtxD.nCell)
    (hb3 : out.nCell ≤ sg.normal.nCell) (hb4 : out.nCell ≤ sg.det.nCell)
    (hb5 : out.nCell ≤ sg.area.nCell)
    (hs1 : mtxD.nLev = grad.nLev) (hs2 : mtxD.nCol = grad.nRow)
    (hs3 : sg.normal.nLev = mtxD.nLev) (hs4 : sg.normal.nRow = mtxD.nRow)
    (ho1 : out.nLev = 1) (ho2 : out.nRow = 1) (ho3 : out.nCol = 1) :
    ∃ r1 r0, d_surface_flux out grad mtxD sg 1 = some r1 ∧
      d_surface_flux out grad mtxD sg 0 = some r0 ∧
      ∀ ii, ii < out.nCell →
        r1.dat ii 0 0 = r0.dat ii 0 0 / (sg.area.cell ii).dat 0 0 := by
  have hsome0 : ∀ i, i < out.nCell →
      (dSurfaceFluxCell out grad mtxD sg 0 i).isSome := fun i hi =>
    dSurfaceFluxCell_zero_isSome out grad mtxD sg i hi (lt_of_lt_of_le hi hb1)
      (lt_of_lt_of_le hi hb2) (lt_of_lt_of_le hi hb3) (lt_of_lt_of_le hi hb4)
      hs1 hs2 hs3 hs4
  have hmap : ∀ i, i < out.nCell →
      dSurfaceFluxCell out grad mtxD sg 1 i =
        (dSurfaceFluxCell out grad mtxD sg 0 i).map
          (fun s => fmf_mulC s (1 / (sg.area.cell i).dat 0 0)) := fun i hi =>
    dSurfaceFluxCell_mean_eq_map out grad mtxD sg i (lt_of_lt_of_le hi hb5)
  have hsome1 : ∀ i, i < out.nCell →
      (dSurfaceFluxCell out grad mtxD sg 1 i).isSome := by
    intro i hi
    obtain ⟨s, hs⟩ := Option.isSome_iff_exists.mp (hsome0 i hi)
    rw [hmap i hi, hs]
    rfl
  refine ⟨_, _,
    (by rw [d_surface_flux]; exact assembleCells_eq_some _ _ _ hsome1),
    (by rw [d_surface_flux]; exact assembleCells_eq_some _ _ _ hsome0), ?_⟩
  intro ii hii
  obtain ⟨s, hs⟩ := Option.isSome_iff_exists.mp (hsome0 ii hii)
  obtain ⟨hsh1, hsh2, hsh3⟩ := dSurfaceFluxCell_shape out grad mtxD sg 0 ii s hs
  simp only [if_pos hii, hs, hmap ii hii, Option.map_some', Option.getD_some]
  rw [fmf_mulC]
  simp only
  rw [if_pos ⟨by rw [hsh1, ho1]; decide,
    by rw [hsh2, hsh3, ho2, ho3]; decide⟩]
  ring

/-- C6/C9 witness input: a one-cell surface batch in 2-D. -/
def exOut6 : FMF := ⟨1, 1, 1, 1, fun _ _ _ => 0⟩

/-- C6/C9 witness input: a 2-D gradient vector per quadrature point. -/
def exGrad6 : FMF := ⟨1, 1, 2, 1, fun _ _ p => if p = 0 then 3 else 4⟩

/-- C6/C9 witness input: a 2 × 2 diffusion tensor. -/
def exMtx6 : FMF := ⟨1, 1, 2, 2, fun _ _ p => if p = 0 then 1 else if p = 3 then 1 else 0⟩

/-- C6/C9 witness input: surface geometry with unit normal `(1,0)ᵀ`, unit
weight and facet area 2. -/
def exSg6 : SurfaceGeometry :=
  ⟨⟨1, 1, 2, 1, fun _ _ p => if p = 0 then 1 else 0⟩,
   ⟨1, 1, 1, 1, fun _ _ _ => 1⟩, ⟨1, 1, 1, 1, fun _ _ _ => 2⟩⟩

theorem d_surface_flux_mean_is_total_div_area_witness :
    (exOut6.nCell ≤ exGrad6.nCell ∧ exOut6.nCell ≤ exMtx6.nCell ∧
      exOut6.nCell ≤ exSg6.normal.nCell ∧ exOut6.nCell ≤ exSg6.det.nCell ∧
      exOut6.nCell ≤ exSg6.area.nCell ∧
      exMtx6.nLev = exGrad6.nLev ∧ exMtx6.nCol = exGrad6.nRow ∧
      exSg6.normal.nLev = exMtx6.nLev ∧ exSg6.normal.nRow = exMtx6.nRow ∧
      exOut6.nLev = 1 ∧ exOut6.nRow = 1 ∧ exOut6.nCol = 1) ∧
    (∃ r1 r0, d_surface_flux exOut6 exGrad6 exMtx6 exSg6 1 = some r1 ∧
      d_surface_flux exOut6 exGrad6 exMtx6 exSg6 0 = some r0 ∧
      ∀ ii, ii < exOut6.nCell →
        r1.dat ii 0 0 = r0.dat ii 0 0 / (exSg6.area.cell ii).dat 0 0) :=
  ⟨⟨by decide, by decide, by decide, by decide, by decide, by decide, by decide,
     by decide, by decide, by decide, by decide, by decide⟩,
    d_surface_flux_mean_is_total_div_area exOut6 exGrad6 exMtx6 exSg6
      (by decide) (by decide) (by decide) (by decide) (by decide) (by decide)
      (by decide) (by decide) (by decide) (by decide) (by decide) (by decide)⟩

/-! ## Claim C9 -/

/-- C9: the mean-flux division by the facet area (line 599) is unguarded in
the source; under the precondition that every processed cell has a nonzero
facet area, the guarded embedding `d_surface_flux_checked` never takes its
error branch and agrees with the unguarded evaluator. -/
theorem d_surface_flux_division_guard_unreachable (out grad mtxD : FMF)
    (sg : SurfaceGeometry)
    (hb1 : out.nCell ≤ grad.nCell) (hb2 : out.nCell ≤ mtxD.nCell)
    (hb3 : out.nCell ≤ sg.normal.nCell) (hb4 : out.nCell ≤ sg.det.nCell)
    (hb5 : out.nCell ≤ sg.area.nCell)
    (hs1 : mtxD.nLev = grad.nLev) (hs2 : mtxD.nCol = grad.nRow)
    (hs3 : sg.normal.nLev = mtxD.nLev) (hs4 : sg.normal.nRow = mtxD.nRow)
    (harea : ∀ ii, ii < out.nCell → (sg.area.cell ii).dat 0 0 ≠ 0) :
    d_surface_flux_checked out grad mtxD sg 1 = d_surface_flux out grad mtxD sg 1 ∧
    (d_surface_flux_checked out grad mtxD sg 1).isSome := by
  have hchk : ∀ i, i < out.nCell →
      dSurfaceFluxCellChecked out grad mtxD sg 1 i =
        dSurfaceFluxCell out grad mtxD sg 1 i := by
    intro i hi
    simp only [dSurfaceFluxCellChecked, dSurfaceFluxCell]
    refine optionBind_congr _ _ _ fun outS => ?_
    refine optionBind_congr _ _ _ fun g => ?_
    refine optionBind_congr _ _ _ fun m => ?_
    refine optionBind_congr _ _ _ fun n => ?_
    refine optionBind_congr _ _ _ fun d => ?_
    refine optionBind_congr _ _ _ fun dgp => ?_
    refine optionBind_congr _ _ _ fun ntdgp => ?_
    rw [if_pos trivial, if_pos trivial]
    refine optionBindMem_congr _ _ _ fun a ha => ?_
    have haeq : a = sg.area.cell i := by
      rw [FMF.setCell_eq sg.area i (lt_of_lt_of_le hi hb5)] at ha
      exact ((Option.some.injEq _ _).mp ha).symm
    rw [if_neg (by rw [haeq]; exact harea i hi)]
  have heq : d_surface_flux_checked out grad mtxD sg 1 =
      d_surface_flux out grad mtxD sg 1 := by
    rw [d_surface_flux_checked, d_surface_flux]
    exact assembleCells_congr _ _ _ _ hchk
  refine ⟨heq, ?_⟩
  rw [heq, d_surface_flux]
  refine (assembleCells_isSome_iff _ _ _).mpr fun i hi => ?_
  obtain ⟨s, hs⟩ := Option.isSome_iff_exists.mp
    (dSurfaceFluxCell_zero_isSome out grad mtxD sg i hi (lt_of_lt_of_le hi hb1)
      (lt_of_lt_of_le hi hb2) (lt_of_lt_of_le hi hb3) (lt_of_lt_of_le hi hb4)
      hs1 hs2 hs3 hs4)
  rw [dSurfaceFluxCell_mean_eq_map out grad mtxD sg i (lt_of_lt_of_le hi hb5), hs]
  rfl

theorem d_surface_flux_division_guard_unreachable_witness :
    (exOut6.nCell ≤ exGrad6.nCell ∧ exOut6.nCell ≤ exMtx6.nCell ∧
      exOut6.nCell ≤ exSg6.normal.nCell ∧ exOut6.nCell ≤ exSg6.det.nCell ∧
      exOut6.nCell ≤ exSg6.area.nCell ∧
      exMtx6.nLev = exGrad6.nLev ∧ exMtx6.nCol = exGrad6.nRow ∧
      exSg6.normal.nLev = exMtx6.nLev ∧ exSg6.normal.nRow = exMtx6.nRow ∧
      (∀ ii, ii < exOut6.nCell → (exSg6.area.cell ii).dat 0 0 ≠ 0)) ∧
    (d_surface_flux_checked exOut6 exGrad6 exMtx6 exSg6 1 =
        d_surface_flux exOut6 exGrad6 exMtx6 exSg6 1 ∧
      (d_surface_flux_checked exOut6 exGrad6 exMtx6 exSg6 1).isSome) :=
  ⟨⟨by decide, by decide, by decide, by decide, by decide, by decide, by decide,
     by decide, by decide, fun _ _ => two_ne_zero⟩,
    d_surface_flux_division_guard_unreachable exOut6 exGrad6 exMtx6 exSg6
      (by decide) (by decide) (by decide) (by decide) (by decide) (by decide)
      (by decide) (by decide) (by decide) (fun _ _ => two_ne_zero)⟩

/-! ## Claim C7 -/

theorem rowmajor_div {n i j : ℕ} (hj : j < n) : (i * n + j) / n = i := by
  have hn : 0 < n := lt_of_le_of_lt (Nat.zero_le j) hj
  rw [Nat.mul_comm i n, Nat.mul_add_div hn, Nat.div_eq_of_lt hj, Nat.add_zero]

theorem rowmajor_mod {n i j : ℕ} (hj : j < n) : (i * n + j) % n = j := by
  rw [Nat.mul_comm i n, Nat.mul_add_mod, Nat.mod_eq_of_lt hj]

/-- The matrix-mode cell body of `dw_diffusion_coupling`, mode selecting
which shape function plays the test role (lines 473-479). -/
theorem dwDiffusionCouplingCell_diff_eq (out state : FMF) (offset : ℕ)
    (mtxD bf : FMF) (vg : VolumeGeometry) (conn : ℕ → ℕ) (nEP : ℕ)
    (elList : ℕ → ℕ) (mode : ℤ) (ii : ℕ)
    (hbo : ii < out.nCell) (hbg : elList ii < vg.bfGM.nCell)
    (hbd : elList ii < vg.det.nCell)
    (hbm : 1 < mtxD.nCell → ii < mtxD.nCell)
    (hml : vg.bfGM.nLev = mtxD.nLev) (hmr : vg.bfGM.nRow = mtxD.nRow)
    (hbl : bf.nLev = vg.bfGM.nLev) (hbr : bf.nRow = mtxD.nCol) :
    dwDiffusionCouplingCell out state offset mtxD bf vg conn nEP elList true mode ii =
      some (fmf_sumLevelsMulF (out.cell ii)
        (if 0 < mode then
          mulATBT_dat (bf.cell 0)
            (mulATB_dat (vg.bfGM.cell (elList ii)) (mtxD.bcast ii))
        else
          mulAB_dat
            (mulATB_dat (vg.bfGM.cell (elList ii)) (mtxD.bcast ii))
            (bf.cell 0))
        (vg.det.cell (elList ii)).flat) := by
  rw [dwDiffusionCouplingCell]
  by_cases hn : 1 < mtxD.nCell
  · have hA : fmf_mulATB_nn (vg.bfGM.cell (elList ii)) (mtxD.cell ii) =
        some (mulATB_dat (vg.bfGM.cell (elList ii)) (mtxD.cell ii)) := by
      rw [fmf_mulATB_nn, if_pos ⟨hml, hmr⟩]
    have hB : fmf_mulATBT_nn (bf.cell 0)
        (mulATB_dat (vg.bfGM.cell (elList ii)) (mtxD.cell ii)) =
        some (mulATBT_dat (bf.cell 0)
          (mulATB_dat (vg.bfGM.cell (elList ii)) (mtxD.cell ii))) := by
      rw [fmf_mulATBT_nn, if_pos ⟨hbl, hbr⟩]
    have hC : fmf_mulAB_nn
        (mulATB_dat (vg.bfGM.cell (elList ii)) (mtxD.cell ii)) (bf.cell 0) =
        some (mulAB_dat
          (mulATB_dat (vg.bfGM.cell (elList ii)) (mtxD.cell ii))
          (bf.cell 0)) := by
      rw [fmf_mulAB_nn, if_pos ⟨hbl.symm, hbr.symm⟩]
    simp [FMF.setCell, hbo, hbg, hbd, hn, hbm hn, FMF.bcast, hA, hB, hC,
      Option.bind]
    split_ifs <;> rfl
  · have hA : fmf_mulATB_nn (vg.bfGM.cell (elList ii)) (mtxD.cell 0) =
        some (mulATB_dat (vg.bfGM.cell (elList ii)) (mtxD.cell 0)) := by
      rw [fmf_mulATB_nn, if_pos ⟨hml, hmr⟩]
    have hB : fmf_mulATBT_nn (bf.cell 0)
        (mulATB_dat (vg.bfGM.cell (elList ii)) (mtxD.cell 0)) =
        some (mulATBT_dat (bf.cell 0)
          (mulATB_dat (vg.bfGM.cell (elList ii)) (mtxD.cell 0))) := by
      rw [fmf_mulATBT_nn, if_pos ⟨hbl, hbr⟩]
    have hC : fmf_mulAB_nn
        (mulATB_dat (vg.bfGM.cell (elList ii)) (mtxD.cell 0)) (bf.cell 0) =
        some (mulAB_dat
          (mulATB_dat (vg.bfGM.cell (elList ii)) (mtxD.cell 0))
          (bf.cell 0)) := by
      rw [fmf_mulAB_nn, if_pos ⟨hbl.symm, hbr.symm⟩]
    simp [FMF.setCell, hbo, hbg, hbd, hn, FMF.bcast, hA, hB, hC, Option.bind]
    split_ifs <;> rfl

theorem bcast_nLev (a : FMF) (ii : ℕ) : (a.bcast ii).nLev = a.nLev := by
  rw [FMF.bcast]; split_ifs <;> rfl

theorem bcast_nRow (a : FMF) (ii : ℕ) : (a.bcast ii).nRow = a.nRow := by
  rw [FMF.bcast]; split_ifs <;> rfl

theorem bcast_nCol (a : FMF) (ii : ℕ) : (a.bcast ii).nCol = a.nCol := by
  rw [FMF.bcast]; split_ifs <;> rfl

theorem mulATB_dat_nLev (a b : Slice) : (mulATB_dat a b).nLev = a.nLev := rfl

theorem mulATB_dat_nRow (a b : Slice) : (mulATB_dat a b).nRow = a.nCol := rfl

theorem mulATB_dat_nCol (a b : Slice) : (mulATB_dat a b).nCol = b.nCol := rfl

/-- C7: for matched shape-function spaces, the per-cell coupling matrix
produced by matrix-mode `dw_diffusion_coupling` with the primary shape
function in the test role (`mode = 1 > 0`) is the transpose of the one
produced with the secondary shape function in the test role
(`mode = 0 ≤ 0`). -/
theorem dw_diffusion_coupling_mode_transpose (out state : FMF) (offset : ℕ)
    (mtxD bf : FMF) (vg : VolumeGeometry) (conn : ℕ → ℕ) (nEl nEP : ℕ)
    (elList : ℕ → ℕ) (elList_nRow : ℕ)
    (hel : elList_nRow ≤ out.nCell)
    (hbg : ∀ ii, ii < elList_nRow → elList ii < vg.bfGM.nCell)
    (hbd : ∀ ii, ii < elList_nRow → elList ii < vg.det.nCell)
    (hbm : 1 < mtxD.nCell → elList_nRow ≤ mtxD.nCell)
    (hml : vg.bfGM.nLev = mtxD.nLev) (hmr : vg.bfGM.nRow = mtxD.nRow)
    (hbl : bf.nLev = vg.bfGM.nLev) (hbr : bf.nRow = mtxD.nCol)
    (hbc : bf.nCol = vg.bfGM.nCol)
    (hor : out.nRow = vg.bfGM.nCol) (hoc : out.nCol = vg.bfGM.nCol) :
    ∃ rP rS,
      dw_diffusion_coupling out state offset mtxD bf vg conn nEl nEP elList
        elList_nRow true 1 = some rP ∧
      dw_diffusion_coupling out state offset mtxD bf vg conn nEl nEP elList
        elList_nRow true 0 = some rS ∧
      ∀ ii, ii < elList_nRow → ∀ i, i < vg.bfGM.nCol → ∀ j, j < vg.bfGM.nCol →
        rP.dat ii 0 (i * out.nCol + j) = rS.dat ii 0 (j * out.nCol + i) := by
  have hbodyP : ∀ ii, ii < elList_nRow →
      dwDiffusionCouplingCell out state offset mtxD bf vg conn nEP elList true 1 ii =
        some (fmf_sumLevelsMulF (out.cell ii)
          (mulATBT_dat (bf.cell 0)
            (mulATB_dat (vg.bfGM.cell (elList ii)) (mtxD.bcast ii)))
          (vg.det.cell (elList ii)).flat) := by
    intro ii hii
    rw [dwDiffusionCouplingCell_diff_eq out state offset mtxD bf vg conn nEP
      elList 1 ii (lt_of_lt_of_le hii hel) (hbg ii hii) (hbd ii hii)
      (fun h => lt_of_lt_of_le hii (hbm h)) hml hmr hbl hbr]
    rw [if_pos (by decide : (0 : ℤ) < 1)]
  have hbodyS : ∀ ii, ii < elList_nRow →
      dwDiffusionCouplingCell out state offset mtxD bf vg conn nEP elList true 0 ii =
        some (fmf_sumLevelsMulF (out.cell ii)
          (mulAB_dat
            (mulATB_dat (vg.bfGM.cell (elList ii)) (mtxD.bcast ii)) (bf.cell 0))
          (vg.det.cell (elList ii)).flat) := by
    intro ii hii
    rw [dwDiffusionCouplingCell_diff_eq out state offset mtxD bf vg conn nEP
      elList 0 ii (lt_of_lt_of_le hii hel) (hbg ii hii) (hbd ii hii)
      (fun h => lt_of_lt_of_le hii (hbm h)) hml hmr hbl hbr]
    rw [if_neg (by decide : ¬ (0 : ℤ) < 0)]
  have hsomeP : ∀ i, i < elList_nRow →
      (dwDiffusionCouplingCell out state offset mtxD bf vg conn nEP elList
        true 1 i).isSome := by
    intro i hi
    rw [hbodyP i hi]
    rfl
  have hsomeS : ∀ i, i < elList_nRow →
      (dwDiffusionCouplingCell out state offset mtxD bf vg conn nEP elList
        true 0 i).isSome := by
    intro i hi
    rw [hbodyS i hi]
    rfl
  refine ⟨_, _,
    (by rw [dw_diffusion_coupling]; exact assembleCells_eq_some _ _ _ hsomeP),
    (by rw [dw_diffusion_coupling]; exact assembleCells_eq_some _ _ _ hsomeS), ?_⟩
  intro ii hii i hi j hj
  simp only [if_pos hii, hbodyP ii hii, hbodyS ii hii, Option.getD_some]
  have hpi : i * out.nCol + j = i * vg.bfGM.nCol + j := by rw [hoc]
  have hpj : j * out.nCol + i = j * vg.bfGM.nCol + i := by rw [hoc]
  have hple1 : i * out.nCol + j < out.nRow * out.nCol := by
    refine rowcol_lt ?_ ?_
    · rw [hor]; exact hi
    · rw [hoc]; exact hj
  have hple2 : j * out.nCol + i < out.nRow * out.nCol := by
    refine rowcol_lt ?_ ?_
    · rw [hor]; exact hj
    · rw [hoc]; exact hi
  rw [fmf_sumLevelsMulF, fmf_sumLevelsMulF]
  simp only [FMF.cell]
  rw [if_pos (⟨trivial, hple1⟩ :
      True ∧ i * out.nCol + j < out.nRow * out.nCol),
    if_pos (⟨trivial, hple2⟩ :
      True ∧ j * out.nCol + i < out.nRow * out.nCol)]
  have hlev : (mulATBT_dat (bf.cell 0)
      (mulATB_dat (vg.bfGM.cell (elList ii)) (mtxD.bcast ii))).nLev =
      (mulAB_dat (mulATB_dat (vg.bfGM.cell (elList ii)) (mtxD.bcast ii))
        (bf.cell 0)).nLev := by
    simp only [mulATBT_dat, mulAB_dat, mulATB_dat_nLev, FMF.cell]
    exact hbl
  simp only [FMF.cell] at hlev
  rw [hlev]
  refine Finset.sum_congr rfl fun il _ => ?_
  congr 1
  simp only [mulATBT_dat, mulAB_dat, mulATB_dat_nRow, mulATB_dat_nCol,
    bcast_nCol, FMF.cell]
  rw [hpi, hpj, rowmajor_div hj, rowmajor_mod hj]
  rw [hbc, rowmajor_div hi, rowmajor_mod hi]
  rw [hbr]
  exact Finset.sum_congr rfl fun k _ => mul_comm _ _

/-- C7 witness inputs: one 2-D cell with two local dofs. -/
def exOut7 : FMF := ⟨1, 1, 2, 2, fun _ _ _ => 0⟩

/-- C7 witness inputs: the 2 × 2 basis-gradient matrix. -/
def exG7 : FMF := ⟨1, 1, 2, 2, fun _ _ p => (p : ℚ)⟩

/-- C7 witness inputs: unit determinant weights. -/
def exDet7 : FMF := ⟨1, 1, 1, 1, fun _ _ _ => 1⟩

/-- C7 witness inputs: the 2 × 1 coefficient vector. -/
def exMtxD7 : FMF := ⟨1, 1, 2, 1, fun _ _ p => (p : ℚ) + 1⟩

/-- C7 witness inputs: the 1 × 2 secondary shape-function row. -/
def exBf7 : FMF := ⟨1, 1, 1, 2, fun _ _ p => (p : ℚ) + 2⟩

theorem dw_diffusion_coupling_mode_transpose_witness :
    (1 ≤ exOut7.nCell ∧ (∀ ii, ii < 1 → (fun _ => 0) ii < exG7.nCell) ∧
      (∀ ii, ii < 1 → (fun _ => 0) ii < exDet7.nCell) ∧
      (1 < exMtxD7.nCell → 1 ≤ exMtxD7.nCell) ∧
      exG7.nLev = exMtxD7.nLev ∧ exG7.nRow = exMtxD7.nRow ∧
      exBf7.nLev = exG7.nLev ∧ exBf7.nRow = exMtxD7.nCol ∧
      exBf7.nCol = exG7.nCol ∧ exOut7.nRow = exG7.nCol ∧ exOut7.nCol = exG7.nCol) ∧
    (∃ rP rS,
      dw_diffusion_coupling exOut7 exOut7 0 exMtxD7 exBf7 ⟨exG7, exDet7⟩
        (fun _ => 0) 1 2 (fun _ => 0) 1 true 1 = some rP ∧
      dw_diffusion_coupling exOut7 exOut7 0 exMtxD7 exBf7 ⟨exG7, exDet7⟩
        (fun _ => 0) 1 2 (fun _ => 0) 1 true 0 = some rS ∧
      ∀ ii, ii < 1 → ∀ i, i < exG7.nCol → ∀ j, j < exG7.nCol →
        rP.dat ii 0 (i * exOut7.nCol + j) = rS.dat ii 0 (j * exOut7.nCol + i)) :=
  ⟨⟨by decide, by decide, by decide, by decide, by decide, by decide, by decide,
     by decide, by decide, by decide, by decide⟩,
    dw_diffusion_coupling_mode_transpose exOut7 exOut7 0 exMtxD7 exBf7
      ⟨exG7, exDet7⟩ (fun _ => 0) 1 2 (fun _ => 0) 1 (by decide) (by decide)
      (by decide) (by decide) (by decide) (by decide) (by decide) (by decide)
      (by decide) (by decide) (by decide)⟩

/-! ## Claim C8 -/

/-- The output-independent part of the `dw_laplace` cell body: the level
matrix to be reduced and the quadrature weights.  Used to factor the cell
body and show the output buffer's prior contents never enter the result. -/
def dwLaplaceCore (grad coef : FMF) (vg : VolumeGeometry) (isDiff : Bool)
    (ii : ℕ) : Option (Slice × (ℕ → ℚ)) := do
  let g ← vg.bfGM.setCell ii
  let d ← vg.det.setCell ii
  let c ← if 1 < coef.nCell then coef.setCell ii else some (coef.cell 0)
  if isDiff then
    let r := laplace_build_gtg (scratch vg.bfGM.nLev vg.bfGM.nCol vg.bfGM.nCol) g
    if r.1 then some (fmf_mulAF r.2 c.flat, Slice.flat d) else none
  else do
    let gr ← grad.setCell ii
    let r := laplace_act_gt_m (scratch vg.bfGM.nLev vg.bfGM.nCol 1) g gr
    if r.1 then some (fmf_mulAF r.2 c.flat, Slice.flat d) else none

theorem dwLaplaceCell_factor (out grad coef : FMF) (vg : VolumeGeometry)
    (isDiff : Bool) (ii : ℕ) :
    dwLaplaceCell out grad coef vg isDiff ii =
      out.setCell ii >>= fun outS =>
        (dwLaplaceCore grad coef vg isDiff ii).map
          (fun aw => fmf_sumLevelsMulF outS aw.1 aw.2) := by
  simp only [dwLaplaceCell, dwLaplaceCore]
  refine optionBind_congr _ _ _ fun outS => ?_
  rw [optionMap_bind]
  refine optionBind_congr _ _ _ fun g => ?_
  rw [optionMap_bind]
  refine optionBind_congr _ _ _ fun d => ?_
  by_cases hcoef : 1 < coef.nCell
  all_goals simp only [hcoef, if_true, if_false]
  all_goals rw [optionMap_bind]
  all_goals refine optionBind_congr _ _ _ fun c => ?_
  all_goals cases isDiff
  all_goals first
    | (rw [if_neg (by decide : ¬ (false = true)),
        if_neg (by decide : ¬ (false = true))]
       rw [optionMap_bind]
       refine optionBind_congr _ _ _ fun gr => ?_
       split_ifs <;> rfl)
    | (rw [if_pos (rfl : true = true), if_pos (rfl : true = true)]
       split_ifs <;> rfl)

/-- The output-independent part of the `d_diffusion` cell body. -/
def dDiffusionCore (gradP1 gradP2 mtxD : FMF) (vg : VolumeGeometry) (ii : ℕ) :
    Option (Slice × (ℕ → ℚ)) := do
  let d ← vg.det.setCell ii
  let g1 ← gradP1.setCell ii
  let g2 ← gradP2.setCell ii
  let m ← if 1 < mtxD.nCell then mtxD.setCell ii else some (mtxD.cell 0)
  let dgp2 ← fmf_mulAB_nn m g2
  let gp1tdgp2 ← fmf_mulATB_nn g1 dgp2
  some (gp1tdgp2, Slice.flat d)

theorem dDiffusionCell_factor (out gradP1 gradP2 mtxD : FMF)
    (vg : VolumeGeometry) (ii : ℕ) :
    dDiffusionCell out gradP1 gradP2 mtxD vg ii =
      out.setCell ii >>= fun outS =>
        (dDiffusionCore gradP1 gradP2 mtxD vg ii).map
          (fun aw => fmf_sumLevelsMulF outS aw.1 aw.2) := by
  simp only [dDiffusionCell, dDiffusionCore]
  refine optionBind_congr _ _ _ fun outS => ?_
  rw [optionMap_bind]
  refine optionBind_congr _ _ _ fun d => ?_
  rw [optionMap_bind]
  refine optionBind_congr _ _ _ fun g1 => ?_
  rw [optionMap_bind]
  refine optionBind_congr _ _ _ fun g2 => ?_
  by_cases hm : 1 < mtxD.nCell
  all_goals simp only [hm, if_true, if_false]
  all_goals rw [optionMap_bind]
  all_goals refine optionBind_congr _ _ _ fun m => ?_
  all_goals rw [optionMap_bind]
  all_goals refine optionBind_congr _ _ _ fun dgp2 => ?_
  all_goals rw [optionMap_bind]
  all_goals refine optionBind_congr _ _ _ fun gp1tdgp2 => ?_
  all_goals rfl

/-- Any evaluator whose cell body factors through an output-independent core
fully overwrites the output: two runs differing only in the initial output
buffer have the same status and identical in-range final contents. -/
theorem assemble_factored_overwrite (out1 out2 : FMF)
    (core : ℕ → Option (Slice × (ℕ → ℚ))) (b1 b2 : ℕ → Option Slice)
    (hC : out1.nCell = out2.nCell) (hL1 : out1.nLev = 1)
    (hR : out1.nRow = out2.nRow) (hCo : out1.nCol = out2.nCol)
    (hb1 : ∀ ii, b1 ii = out1.setCell ii >>= fun outS =>
      (core ii).map (fun aw => fmf_sumLevelsMulF outS aw.1 aw.2))
    (hb2 : ∀ ii, b2 ii = out2.setCell ii >>= fun outS =>
      (core ii).map (fun aw => fmf_sumLevelsMulF outS aw.1 aw.2)) :
    (assembleCells out1 out1.nCell b1).isSome =
      (assembleCells out2 out2.nCell b2).isSome ∧
    ∀ r1 r2, assembleCells out1 out1.nCell b1 = some r1 →
      assembleCells out2 out2.nCell b2 = some r2 →
      ∀ c, c < out1.nCell → ∀ l, l < out1.nLev → ∀ p, p < out1.nRow * out1.nCol →
        r1.dat c l p = r2.dat c l p := by
  have hsome_iff : ∀ i, i < out1.nCell → ((b1 i).isSome ↔ (b2 i).isSome) := by
    intro i hi
    rw [hb1 i, hb2 i, FMF.setCell_eq out1 i hi, FMF.setCell_eq out2 i (hC ▸ hi)]
    cases hcore : core i <;> simp [hcore]
  constructor
  · by_cases hall : ∀ i, i < out1.nCell → (b1 i).isSome
    · have hall2 : ∀ i, i < out2.nCell → (b2 i).isSome := by
        intro i hi
        have hi1 : i < out1.nCell := by rw [hC]; exact hi
        exact (hsome_iff i hi1).mp (hall i hi1)
      rw [assembleCells_eq_some _ _ _ hall, assembleCells_eq_some _ _ _ hall2]
      rfl
    · have hall2 : ¬ ∀ i, i < out2.nCell → (b2 i).isSome := by
        intro h2
        exact hall fun i hi =>
          (hsome_iff i hi).mpr (h2 i (by rw [← hC]; exact hi))
      rw [assembleCells, assembleCells, if_neg hall, if_neg hall2]
  · intro r1 r2 h1 h2 c hc l hl p hp
    have hall1 : ∀ i, i < out1.nCell → (b1 i).isSome := by
      intro i hi
      by_contra hno
      rw [assembleCells, if_neg (fun hall => hno (hall i hi))] at h1
      cases h1
    have hall2 : ∀ i, i < out2.nCell → (b2 i).isSome := by
      intro i hi
      by_contra hno
      rw [assembleCells, if_neg (fun hall => hno (hall i hi))] at h2
      cases h2
    rw [assembleCells_eq_some _ _ _ hall1] at h1
    rw [assembleCells_eq_some _ _ _ hall2] at h2
    have hc2 : c < out2.nCell := hC ▸ hc
    have hl0 : l = 0 := Nat.lt_one_iff.mp (hL1 ▸ hl)
    obtain ⟨aw, haw⟩ : ∃ aw, core c = some aw := by
      have := hall1 c hc
      rw [hb1 c, FMF.setCell_eq out1 c hc] at this
      cases hcore : core c
      · rw [hcore] at this
        cases this
      · exact ⟨_, rfl⟩
    cases h1
    cases h2
    simp only [if_pos hc, if_pos hc2, hb1 c, hb2 c, FMF.setCell_eq out1 c hc,
      FMF.setCell_eq out2 c hc2, haw, Option.map_some', Option.getD_some]
    rw [hl0]
    change (fmf_sumLevelsMulF (out1.cell c) aw.1 aw.2).dat 0 p =
      (fmf_sumLevelsMulF (out2.cell c) aw.1 aw.2).dat 0 p
    rw [fmf_sumLevelsMulF, fmf_sumLevelsMulF]
    simp only [FMF.cell]
    rw [if_pos (⟨trivial, hp⟩ : True ∧ p < out1.nRow * out1.nCol),
      if_pos (⟨trivial, (by rw [← hR, ← hCo]; exact hp :
          p < out2.nRow * out2.nCol)⟩ :
        True ∧ p < out2.nRow * out2.nCol)]

/-- C8: two invocations of `dw_laplace` (either mode) or `d_diffusion` that
differ only in the initial contents of the output buffer have the same
status and identical final in-range output contents: each call fully
overwrites the output and never accumulates into it. -/
theorem evaluators_fully_overwrite_output (out1 out2 grad coef gradP1 gradP2
    mtxD : FMF) (vg : VolumeGeometry) (isDiff : Bool)
    (hC : out1.nCell = out2.nCell) (hL1 : out1.nLev = 1) (hL2 : out2.nLev = 1)
    (hR : out1.nRow = out2.nRow) (hCo : out1.nCol = out2.nCol) :
    ((dw_laplace out1 grad coef vg isDiff).isSome =
        (dw_laplace out2 grad coef vg isDiff).isSome ∧
      ∀ r1 r2, dw_laplace out1 grad coef vg isDiff = some r1 →
        dw_laplace out2 grad coef vg isDiff = some r2 →
        ∀ c, c < out1.nCell → ∀ l, l < out1.nLev →
          ∀ p, p < out1.nRow * out1.nCol → r1.dat c l p = r2.dat c l p) ∧
    ((d_diffusion out1 gradP1 gradP2 mtxD vg).isSome =
        (d_diffusion out2 gradP1 gradP2 mtxD vg).isSome ∧
      ∀ r1 r2, d_diffusion out1 gradP1 gradP2 mtxD vg = some r1 →
        d_diffusion out2 gradP1 gradP2 mtxD vg = some r2 →
        ∀ c, c < out1.nCell → ∀ l, l < out1.nLev →
          ∀ p, p < out1.nRow * out1.nCol → r1.dat c l p = r2.dat c l p) := by
  constructor
  · exact assemble_factored_overwrite out1 out2
      (dwLaplaceCore grad coef vg isDiff)
      (dwLaplaceCell out1 grad coef vg isDiff)
      (dwLaplaceCell out2 grad coef vg isDiff) hC hL1 hR hCo
      (fun ii => dwLaplaceCell_factor out1 grad coef vg isDiff ii)
      (fun ii => dwLaplaceCell_factor out2 grad coef vg isDiff ii)
  · exact assemble_factored_overwrite out1 out2
      (dDiffusionCore gradP1 gradP2 mtxD vg)
      (dDiffusionCell out1 gradP1 gradP2 mtxD vg)
      (dDiffusionCell out2 gradP1 gradP2 mtxD vg) hC hL1 hR hCo
      (fun ii => dDiffusionCell_factor out1 gradP1 gradP2 mtxD vg ii)
      (fun ii => dDiffusionCell_factor out2 gradP1 gradP2 mtxD vg ii)

/-- C8 witness input: the same output buffer shape as `exOut1`, but filled
with the value 7 instead of 0. -/
def exOut8 : FMF := ⟨1, 1, 4, 4, fun _ _ _ => 7⟩

theorem evaluators_fully_overwrite_output_witness :
    (exOut1.nCell = exOut8.nCell ∧ exOut1.nLev = 1 ∧ exOut8.nLev = 1 ∧
      exOut1.nRow = exOut8.nRow ∧ exOut1.nCol = exOut8.nCol) ∧
    (((dw_laplace exOut1 exG1 exCoef1 ⟨exG1, exDet1⟩ true).isSome =
        (dw_laplace exOut8 exG1 exCoef1 ⟨exG1, exDet1⟩ true).isSome ∧
      ∀ r1 r2, dw_laplace exOut1 exG1 exCoef1 ⟨exG1, exDet1⟩ true = some r1 →
        dw_laplace exOut8 exG1 exCoef1 ⟨exG1, exDet1⟩ true = some r2 →
        ∀ c, c < exOut1.nCell → ∀ l, l < exOut1.nLev →
          ∀ p, p < exOut1.nRow * exOut1.nCol → r1.dat c l p = r2.dat c l p) ∧
    ((d_diffusion exOut1 exG1 exG1 exCoef1 ⟨exG1, exDet1⟩).isSome =
        (d_diffusion exOut8 exG1 exG1 exCoef1 ⟨exG1, exDet1⟩).isSome ∧
      ∀ r1 r2, d_diffusion exOut1 exG1 exG1 exCoef1 ⟨exG1, exDet1⟩ = some r1 →
        d_diffusion exOut8 exG1 exG1 exCoef1 ⟨exG1, exDet1⟩ = some r2 →
        ∀ c, c < exOut1.nCell → ∀ l, l < exOut1.nLev →
          ∀ p, p < exOut1.nRow * exOut1.nCol → r1.dat c l p = r2.dat c l p)) :=
  ⟨⟨by decide, by decide, by decide, by decide, by decide⟩,
    evaluators_fully_overwrite_output exOut1 exOut8 exG1 exCoef1 exG1 exG1
      exCoef1 ⟨exG1, exDet1⟩ true (by decide) (by decide) (by decide)
      (by decide) (by decide)⟩
